import Mathlib

/-!
Verification of the Minesweeper Grid Engine of this repository.

The definitions below are a shallow embedding of the `MinesweeperScene`
class (the tile-clicking minesweeper game): the cell record, the grid,
mine placement with a safety zone, adjacency counting, the recursive
reveal cascade, flag toggling, win checking and game-end processing.

Modelling decisions:
* the 2D cell array `grid: Cell[][]` becomes a total function
  `Nat → Nat → Cell` together with the grid dimensions; every access the
  source performs is bounds-guarded, so only in-range values matter;
* `Math.random()`-driven mine placement consumes an explicit finite
  stream of raw samples (each reduced modulo the grid dimensions, as
  `Math.floor(Math.random()*w)` always yields an in-range value); an
  exhausted stream models the `while` loop still spinning;
* the recursive `revealCell` is given explicit fuel; `none` means the
  fuel bound was hit.  Fuel sufficiency is proved separately, which is
  the termination statement for the source's native recursion.
-/

namespace Minesweeper

/-- One cell of the minesweeper grid, as in the `Cell` interface of the
source (the source also stores the coordinates `x`, `y` in the record;
they are never read by the game logic, so they are omitted here — the
grid function supplies the coordinates). -/
structure Cell where
  isMine : Bool
  isRevealed : Bool
  isFlagged : Bool
  adjacentMines : Nat

/-- The initial cell produced by `initGrid`. -/
def initCell : Cell :=
  { isMine := false, isRevealed := false, isFlagged := false, adjacentMines := 0 }

/-- The grid: dimensions plus the cell at each coordinate.  `cell x y`
corresponds to `this.grid[y][x]` in the source. -/
structure Grid where
  width : Nat
  height : Nat
  cell : Nat → Nat → Cell

/-- `initGrid` from the source: every cell non-mine, unrevealed,
unflagged, zero count. -/
def initGrid (w h : Nat) : Grid :=
  { width := w, height := h, cell := fun _ _ => initCell }

/-- Writing one cell of the grid (`this.grid[y][x] = c`). -/
def Grid.setCell (g : Grid) (x y : Nat) (c : Cell) : Grid :=
  { g with cell := fun x' y' => if x' = x ∧ y' = y then c else g.cell x' y' }

/-- The eight-plus-centre kernel the source iterates with
`for dy in -1..1, for dx in -1..1`, in exactly that iteration order
(pairs are `(dx, dy)`).  Note the source includes the `(0,0)` offset. -/
def kernelOffsets : List (Int × Int) :=
  [(-1, -1), (0, -1), (1, -1), (-1, 0), (0, 0), (1, 0), (-1, 1), (0, 1), (1, 1)]

/-- The in-bounds kernel neighbours of `(x, y)`, in source iteration
order: the source computes `nx = x + dx`, `ny = y + dy` and keeps the
pair when `0 ≤ nx < width` and `0 ≤ ny < height`. -/
def neighborCoords (g : Grid) (x y : Nat) : List (Nat × Nat) :=
  kernelOffsets.filterMap fun d =>
    let nx : Int := (x : Int) + d.1
    let ny : Int := (y : Int) + d.2
    if 0 ≤ nx ∧ nx < (g.width : Int) ∧ 0 ≤ ny ∧ ny < (g.height : Int) then
      some (nx.toNat, ny.toNat)
    else
      none

/-- `countAdjacentMines` from the source: the number of in-bounds kernel
neighbours (the cell itself included, as in the source's loop) that are
mines. -/
def countAdjacentMines (g : Grid) (x y : Nat) : Nat :=
  (neighborCoords g x y).countP fun p => (g.cell p.1 p.2).isMine

/-- The second half of `placeMines`: for every in-bounds non-mine cell,
store `countAdjacentMines` in `adjacentMines`.  The loop only reads
`isMine` fields while writing `adjacentMines` fields, so the functional
version is exact. -/
def computeAdjacency (g : Grid) : Grid :=
  { g with cell := fun x y =>
      if x < g.width ∧ y < g.height ∧ (g.cell x y).isMine = false then
        { g.cell x y with adjacentMines := countAdjacentMines g x y }
      else
        g.cell x y }

/-- Whether a sampled coordinate falls in the safety zone around the
first click: `Math.abs(x - safeX) <= 1 && Math.abs(y - safeY) <= 1`. -/
def inSafeZone (safeX safeY x y : Nat) : Bool :=
  ((x : Int) - (safeX : Int)).natAbs ≤ 1 ∧ ((y : Int) - (safeY : Int)).natAbs ≤ 1

/-- The `while (minesPlaced < this.mineCount)` loop of `placeMines`,
consuming an explicit stream of raw random samples.  Each raw sample is
reduced modulo the dimensions, mirroring
`Math.floor(Math.random() * gridWidth)` always producing an in-range
coordinate.  A sample is accepted when the cell is not already a mine
and not inside the safety zone.  An exhausted stream returns the grid
and count reached so far: the source loop would still be running at that
point unless `minesPlaced` has reached `mineCount`. -/
def placeMinesGo (mineCount safeX safeY : Nat) :
    Grid → Nat → List (Nat × Nat) → Grid × Nat
  | g, placed, [] => (g, placed)
  | g, placed, r :: rs =>
    if mineCount ≤ placed then (g, placed)
    else
      let x := r.1 % g.width
      let y := r.2 % g.height
      if (g.cell x y).isMine = false ∧ inSafeZone safeX safeY x y = false then
        placeMinesGo mineCount safeX safeY
          (g.setCell x y { g.cell x y with isMine := true }) (placed + 1) rs
      else
        placeMinesGo mineCount safeX safeY g placed rs

/-- `placeMines` from the source: the sampling loop followed by the
adjacency-computation pass. -/
def placeMines (g : Grid) (mineCount safeX safeY : Nat) (rs : List (Nat × Nat)) : Grid :=
  computeAdjacency (placeMinesGo mineCount safeX safeY g 0 rs).1

/-- The per-session state of `MinesweeperScene` that the game logic
reads and writes: the grid and the `gameOver`, `won`, `firstClick` and
`flagsPlaced` fields.  Timing and rendering state is presentation-only
and omitted. -/
structure GameState where
  grid : Grid
  gameOver : Bool
  won : Bool
  firstClick : Bool
  flagsPlaced : Int

/-- `toggleFlag` from the source: a no-op on revealed cells; otherwise
flips the flag and adjusts `flagsPlaced` by the new flag value. -/
def toggleFlag (s : GameState) (x y : Nat) : GameState :=
  let c := s.grid.cell x y
  if c.isRevealed = true then s
  else
    { s with
      grid := s.grid.setCell x y { c with isFlagged := !c.isFlagged }
      flagsPlaced := s.flagsPlaced + (if !c.isFlagged then 1 else -1) }

/-- The mine-revealing loop of `endGame`: every in-bounds mine cell gets
`isRevealed = true`. -/
def revealAllMines (g : Grid) : Grid :=
  { g with cell := fun x y =>
      if x < g.width ∧ y < g.height ∧ (g.cell x y).isMine = true then
        { g.cell x y with isRevealed := true }
      else
        g.cell x y }

/-- `endGame` from the source: sets `gameOver`, records the outcome in
`won`, and reveals every mine (the elapsed-time computation and the
callbacks are presentation-only). -/
def endGame (s : GameState) (won : Bool) : GameState :=
  { s with gameOver := true, won := won, grid := revealAllMines s.grid }

/-- The count `checkWin` computes: in-bounds cells that are neither
revealed nor mines. -/
def unrevealedSafeCount (g : Grid) : Nat :=
  ((Finset.range g.width ×ˢ Finset.range g.height).filter fun p =>
    (g.cell p.1 p.2).isRevealed = false ∧ (g.cell p.1 p.2).isMine = false).card

/-- `checkWin` from the source: when no unrevealed safe cell remains,
the game ends as won; otherwise nothing happens. -/
def checkWin (s : GameState) : GameState :=
  if unrevealedSafeCount s.grid = 0 then endGame s true else s

/-- Marking one cell revealed (`cell.isRevealed = true`). -/
def setRevealed (s : GameState) (x y : Nat) : GameState :=
  { s with grid := s.grid.setCell x y { s.grid.cell x y with isRevealed := true } }

/-- `revealCell` from the source, with explicit fuel standing for the
native call stack (`none` = fuel exhausted).  Structure mirrored
exactly: return unchanged if the cell is revealed or flagged; mark
revealed; on a mine, `endGame(false)` and return; on a zero count,
sequentially reveal every in-bounds kernel neighbour (the source's
nested `for` loops, here a left fold threading the state); finally
`checkWin()`. -/
def revealCellF : Nat → GameState → Nat → Nat → Option GameState
  | 0, _, _, _ => none
  | f + 1, s, x, y =>
    let c := s.grid.cell x y
    if c.isRevealed = true ∨ c.isFlagged = true then some s
    else
      let s1 := setRevealed s x y
      if c.isMine = true then some (endGame s1 false)
      else if c.adjacentMines = 0 then
        match (neighborCoords s1.grid x y).foldl
            (fun acc p =>
              match acc with
              | none => none
              | some st => revealCellF f st p.1 p.2) (some s1) with
        | none => none
        | some s2 => some (checkWin s2)
      else some (checkWin s1)

/-- The cascade's neighbour loop as a standalone function: sequentially
reveal each coordinate of the list, threading the state. -/
def revealNbrsF (f : Nat) (s : GameState) (l : List (Nat × Nat)) : Option GameState :=
  l.foldl
    (fun acc p =>
      match acc with
      | none => none
      | some st => revealCellF f st p.1 p.2) (some s)

/-- The state a completed reveal call produces (defaulting to the input
state; theorems pair this with an `isSome` fact). -/
def runReveal (f : Nat) (s : GameState) (x y : Nat) : GameState :=
  (revealCellF f s x y).getD s

/-- Number of in-bounds unrevealed cells; the fuel measure of the
cascade. -/
def unrevealedCount (g : Grid) : Nat :=
  ((Finset.range g.width ×ˢ Finset.range g.height).filter fun p =>
    (g.cell p.1 p.2).isRevealed = false).card

/-- A session is lost when the game is over and not won. -/
def lost (s : GameState) : Bool :=
  s.gameOver && !s.won

/-- Result of one `pointerdown` event on the scene. -/
inductive HandlerResult where
  | restarted
  | next (s : GameState)
  | stackOverflow

/-- The scene's `pointerdown` handler, after the input collaborator has
translated pixel coordinates to grid coordinates (`gridX`, `gridY`, as
integers so that off-grid clicks are representable).  When the game is
over, a left click restarts the scene and any other click does nothing.
Otherwise, in-bounds right clicks toggle a flag and in-bounds left
clicks reveal (placing mines first on the very first click).  `fuel`
bounds the reveal recursion and `rs` feeds the mine placement. -/
def handlePointer (s : GameState) (right left : Bool) (gridX gridY : Int)
    (fuel : Nat) (rs : List (Nat × Nat)) (mineCount : Nat) : HandlerResult :=
  if s.gameOver = true then
    if left = true then .restarted else .next s
  else if 0 ≤ gridX ∧ gridX < (s.grid.width : Int) ∧
      0 ≤ gridY ∧ gridY < (s.grid.height : Int) then
    let x := gridX.toNat
    let y := gridY.toNat
    if right = true then .next (toggleFlag s x y)
    else if left = true then
      let s1 :=
        if s.firstClick = true then
          { s with grid := placeMines s.grid mineCount x y rs, firstClick := false }
        else s
      match revealCellF fuel s1 x y with
      | none => .stackOverflow
      | some s2 => .next s2
    else .next s
  else .next s

/-! ### Basic grid lemmas -/

theorem setCell_width (g : Grid) (x y : Nat) (c : Cell) : (g.setCell x y c).width = g.width := rfl

theorem setCell_height (g : Grid) (x y : Nat) (c : Cell) : (g.setCell x y c).height = g.height := rfl

theorem cell_setCell_self (g : Grid) (x y : Nat) (c : Cell) : (g.setCell x y c).cell x y = c := by
  simp [Grid.setCell]

theorem cell_setCell_ne (g : Grid) (x y : Nat) (c : Cell) (x' y' : Nat)
    (h : ¬(x' = x ∧ y' = y)) : (g.setCell x y c).cell x' y' = g.cell x' y' := by
  simp only [Grid.setCell]
  exact if_neg h

/-- Two grids with equal dimensions. -/
def dimsEq (g g' : Grid) : Prop := g'.width = g.width ∧ g'.height = g.height

theorem dimsEq_refl (g : Grid) : dimsEq g g := ⟨rfl, rfl⟩

theorem dimsEq_trans {a b c : Grid} (h1 : dimsEq a b) (h2 : dimsEq b c) : dimsEq a c :=
  ⟨h2.1.trans h1.1, h2.2.trans h1.2⟩

/-- `neighborCoords` reads only the dimensions of the grid. -/
theorem neighborCoords_congr {g g' : Grid} (h : dimsEq g g') (x y : Nat) :
    neighborCoords g' x y = neighborCoords g x y := by
  simp only [neighborCoords, h.1, h.2]

theorem mem_neighborCoords_bounds {g : Grid} {x y : Nat} {p : Nat × Nat}
    (h : p ∈ neighborCoords g x y) : p.1 < g.width ∧ p.2 < g.height := by
  simp only [neighborCoords, List.mem_filterMap] at h
  obtain ⟨d, _, hd⟩ := h
  by_cases hc : 0 ≤ (x : Int) + d.1 ∧ (x : Int) + d.1 < (g.width : Int) ∧
      0 ≤ (y : Int) + d.2 ∧ (y : Int) + d.2 < (g.height : Int)
  · rw [if_pos hc, Option.some_inj] at hd
    subst hd
    constructor <;> simp only [] <;> omega
  · rw [if_neg hc] at hd
    exact absurd hd (by simp)

theorem self_mem_neighborCoords (g : Grid) {x y : Nat} (hx : x < g.width) (hy : y < g.height) :
    (x, y) ∈ neighborCoords g x y := by
  simp only [neighborCoords, List.mem_filterMap]
  refine ⟨(0, 0), by simp [kernelOffsets], ?_⟩
  rw [if_pos (by constructor <;> omega)]
  simp

theorem countAdjacentMines_eq_zero_iff (g : Grid) (x y : Nat) :
    countAdjacentMines g x y = 0 ↔
      ∀ p ∈ neighborCoords g x y, (g.cell p.1 p.2).isMine = false := by
  simp only [countAdjacentMines, List.countP_eq_zero, Bool.not_eq_true]

/-- Two grids with the same dimensions and the same mine layout. -/
def minesEq (g g' : Grid) : Prop :=
  dimsEq g g' ∧ ∀ x y, (g'.cell x y).isMine = (g.cell x y).isMine

/-- `countAdjacentMines` reads only the dimensions and the mine fields. -/
theorem countAdjacentMines_congr {g g' : Grid} (h : minesEq g g') (x y : Nat) :
    countAdjacentMines g' x y = countAdjacentMines g x y := by
  unfold countAdjacentMines
  rw [neighborCoords_congr h.1]
  exact List.countP_congr fun p _ => by rw [h.2]

/-- Same dimensions, mines, flags and adjacency counts: only `isRevealed`
may differ.  This is what every reveal-side operation preserves. -/
def sameBoard (g g' : Grid) : Prop :=
  dimsEq g g' ∧ ∀ x y,
    (g'.cell x y).isMine = (g.cell x y).isMine ∧
    (g'.cell x y).isFlagged = (g.cell x y).isFlagged ∧
    (g'.cell x y).adjacentMines = (g.cell x y).adjacentMines

theorem sameBoard_refl (g : Grid) : sameBoard g g := ⟨dimsEq_refl g, fun _ _ => ⟨rfl, rfl, rfl⟩⟩

theorem sameBoard_trans {a b c : Grid} (h1 : sameBoard a b) (h2 : sameBoard b c) :
    sameBoard a c := by
  refine ⟨dimsEq_trans h1.1 h2.1, fun x y => ?_⟩
  obtain ⟨m1, f1, a1⟩ := h1.2 x y
  obtain ⟨m2, f2, a2⟩ := h2.2 x y
  exact ⟨m2.trans m1, f2.trans f1, a2.trans a1⟩

theorem sameBoard.minesEq {g g' : Grid} (h : sameBoard g g') : minesEq g g' :=
  ⟨h.1, fun x y => (h.2 x y).1⟩

/-- Reveal monotonicity: every cell revealed in `g` is revealed in `g'`. -/
def revMono (g g' : Grid) : Prop :=
  ∀ x y, (g.cell x y).isRevealed = true → (g'.cell x y).isRevealed = true

theorem revMono_refl (g : Grid) : revMono g g := fun _ _ h => h

theorem revMono_trans {a b c : Grid} (h1 : revMono a b) (h2 : revMono b c) : revMono a c :=
  fun x y h => h2 x y (h1 x y h)

/-! ### Shape of the primitive operations -/

theorem sameBoard_setRevealed (s : GameState) (x y : Nat) :
    sameBoard s.grid (setRevealed s x y).grid := by
  refine ⟨dimsEq_refl _, fun x' y' => ?_⟩
  by_cases h : x' = x ∧ y' = y
  · obtain ⟨rfl, rfl⟩ := h
    simp [setRevealed, cell_setCell_self]
  · simp [setRevealed, cell_setCell_ne _ _ _ _ _ _ h]

theorem revMono_setRevealed (s : GameState) (x y : Nat) :
    revMono s.grid (setRevealed s x y).grid := by
  intro x' y' h
  by_cases hc : x' = x ∧ y' = y
  · obtain ⟨rfl, rfl⟩ := hc
    simp [setRevealed, cell_setCell_self]
  · simpa [setRevealed, cell_setCell_ne _ _ _ _ _ _ hc] using h

theorem cell_setRevealed_self (s : GameState) (x y : Nat) :
    (setRevealed s x y).grid.cell x y = { s.grid.cell x y with isRevealed := true } := by
  simp [setRevealed, cell_setCell_self]

theorem sameBoard_revealAllMines (g : Grid) : sameBoard g (revealAllMines g) := by
  refine ⟨⟨rfl, rfl⟩, fun x y => ?_⟩
  by_cases h : x < g.width ∧ y < g.height ∧ (g.cell x y).isMine = true
  · simp [revealAllMines, if_pos h]
  · simp [revealAllMines, if_neg h]

theorem revMono_revealAllMines (g : Grid) : revMono g (revealAllMines g) := by
  intro x y h
  by_cases hc : x < g.width ∧ y < g.height ∧ (g.cell x y).isMine = true
  · simp [revealAllMines, if_pos hc]
  · simpa [revealAllMines, if_neg hc] using h

theorem endGame_grid (s : GameState) (w : Bool) : (endGame s w).grid = revealAllMines s.grid := rfl

theorem endGame_gameOver (s : GameState) (w : Bool) : (endGame s w).gameOver = true := rfl

theorem endGame_won (s : GameState) (w : Bool) : (endGame s w).won = w := rfl

theorem sameBoard_checkWin (s : GameState) : sameBoard s.grid (checkWin s).grid := by
  unfold checkWin
  split
  · exact sameBoard_revealAllMines s.grid
  · exact sameBoard_refl s.grid

theorem revMono_checkWin (s : GameState) : revMono s.grid (checkWin s).grid := by
  unfold checkWin
  split
  · exact revMono_revealAllMines s.grid
  · exact revMono_refl s.grid

/-! ### Counting lemmas -/

theorem unrevealedSafeCount_pos (g : Grid) {x y : Nat} (hx : x < g.width) (hy : y < g.height)
    (hr : (g.cell x y).isRevealed = false) (hm : (g.cell x y).isMine = false) :
    unrevealedSafeCount g ≠ 0 := by
  have hmem : (x, y) ∈ (Finset.range g.width ×ˢ Finset.range g.height).filter fun p =>
      (g.cell p.1 p.2).isRevealed = false ∧ (g.cell p.1 p.2).isMine = false := by
    simp only [Finset.mem_filter, Finset.mem_product, Finset.mem_range]
    exact ⟨⟨hx, hy⟩, hr, hm⟩
  unfold unrevealedSafeCount
  exact Finset.card_ne_zero_of_mem hmem

theorem checkWin_of_unrevealed (s : GameState) {x y : Nat} (hx : x < s.grid.width)
    (hy : y < s.grid.height) (hr : (s.grid.cell x y).isRevealed = false)
    (hm : (s.grid.cell x y).isMine = false) : checkWin s = s := by
  unfold checkWin
  exact if_neg (unrevealedSafeCount_pos s.grid hx hy hr hm)

theorem unrevealedCount_congr {g g' : Grid} (hd : dimsEq g g')
    (h : ∀ x y, x < g.width → y < g.height →
      (g'.cell x y).isRevealed = (g.cell x y).isRevealed) :
    unrevealedCount g' = unrevealedCount g := by
  unfold unrevealedCount
  rw [hd.1, hd.2]
  apply Finset.card_bij (fun p _ => p)
  · intro p hp
    simp only [Finset.mem_filter, Finset.mem_product, Finset.mem_range] at hp ⊢
    exact ⟨hp.1, by rw [← h p.1 p.2 hp.1.1 hp.1.2]; exact hp.2⟩
  · intro p _ q _ hpq
    exact hpq
  · intro p hp
    simp only [Finset.mem_filter, Finset.mem_product, Finset.mem_range] at hp ⊢
    exact ⟨p, ⟨hp.1, by rw [h p.1 p.2 hp.1.1 hp.1.2]; exact hp.2⟩, rfl⟩

theorem unrevealedCount_le_of_revMono {g g' : Grid} (hd : dimsEq g g') (h : revMono g g') :
    unrevealedCount g' ≤ unrevealedCount g := by
  unfold unrevealedCount
  rw [hd.1, hd.2]
  apply Finset.card_le_card
  intro p hp
  simp only [Finset.mem_filter, Finset.mem_product, Finset.mem_range] at hp ⊢
  refine ⟨hp.1, ?_⟩
  by_contra hc
  have : (g.cell p.1 p.2).isRevealed = true := by
    cases hcell : (g.cell p.1 p.2).isRevealed
    · exact absurd hcell hc
    · rfl
  have := h p.1 p.2 this
  rw [hp.2] at this
  exact absurd this (by simp)

theorem unrevealedCount_setRevealed (s : GameState) {x y : Nat} (hx : x < s.grid.width)
    (hy : y < s.grid.height) (hr : (s.grid.cell x y).isRevealed = false) :
    unrevealedCount (setRevealed s x y).grid + 1 = unrevealedCount s.grid := by
  unfold unrevealedCount
  have hd : dimsEq s.grid (setRevealed s x y).grid := (sameBoard_setRevealed s x y).1
  rw [hd.1, hd.2]
  have hset : ((Finset.range s.grid.width ×ˢ Finset.range s.grid.height).filter fun p =>
      ((setRevealed s x y).grid.cell p.1 p.2).isRevealed = false) =
      ((Finset.range s.grid.width ×ˢ Finset.range s.grid.height).filter fun p =>
        (s.grid.cell p.1 p.2).isRevealed = false).erase (x, y) := by
    ext p
    simp only [Finset.mem_filter, Finset.mem_erase, Finset.mem_product, Finset.mem_range]
    constructor
    · intro ⟨hb, hrev⟩
      by_cases hc : p.1 = x ∧ p.2 = y
      · exfalso
        have hpxy : p = (x, y) := Prod.ext hc.1 hc.2
        rw [hpxy] at hrev
        simp only [setRevealed, cell_setCell_self] at hrev
        exact absurd hrev (by simp)
      · refine ⟨?_, hb, ?_⟩
        · intro hpeq
          exact hc ⟨by rw [hpeq], by rw [hpeq]⟩
        · rwa [setRevealed, cell_setCell_ne _ _ _ _ _ _ hc] at hrev
    · intro ⟨hne, hb, hrev⟩
      have hc : ¬(p.1 = x ∧ p.2 = y) := by
        intro ⟨h1, h2⟩
        exact hne (Prod.ext h1 h2)
      refine ⟨hb, ?_⟩
      rwa [setRevealed, cell_setCell_ne _ _ _ _ _ _ hc]
  rw [hset]
  have hmem : (x, y) ∈ (Finset.range s.grid.width ×ˢ Finset.range s.grid.height).filter
      fun p => (s.grid.cell p.1 p.2).isRevealed = false := by
    simp only [Finset.mem_filter, Finset.mem_product, Finset.mem_range]
    exact ⟨⟨hx, hy⟩, hr⟩
  rw [Finset.card_erase_of_mem hmem]
  have := Finset.card_pos.mpr ⟨(x, y), hmem⟩
  omega

/-! ### Unfolding the cascade -/

theorem revealCellF_succ (f : Nat) (s : GameState) (x y : Nat) :
    revealCellF (f + 1) s x y =
      if (s.grid.cell x y).isRevealed = true ∨ (s.grid.cell x y).isFlagged = true then some s
      else if (s.grid.cell x y).isMine = true then some (endGame (setRevealed s x y) false)
      else if (s.grid.cell x y).adjacentMines = 0 then
        match revealNbrsF f (setRevealed s x y) (neighborCoords (setRevealed s x y).grid x y) with
        | none => none
        | some s2 => some (checkWin s2)
      else some (checkWin (setRevealed s x y)) := rfl

theorem revealNbrsF_nil (f : Nat) (s : GameState) : revealNbrsF f s [] = some s := rfl

theorem revealNbrsF_none (f : Nat) (l : List (Nat × Nat)) :
    l.foldl
      (fun acc p =>
        match acc with
        | none => none
        | some st => revealCellF f st p.1 p.2) none = none := by
  induction l with
  | nil => rfl
  | cons p rest ih => exact ih

theorem revealNbrsF_cons (f : Nat) (s : GameState) (p : Nat × Nat) (rest : List (Nat × Nat)) :
    revealNbrsF f s (p :: rest) =
      match revealCellF f s p.1 p.2 with
      | none => none
      | some s1 => revealNbrsF f s1 rest := by
  unfold revealNbrsF
  rw [List.foldl_cons]
  cases hr : revealCellF f s p.1 p.2 with
  | none =>
    simp only [hr]
    exact revealNbrsF_none f rest
  | some s1 =>
    simp only [hr]

theorem revealCellF_zero (s : GameState) (x y : Nat) : revealCellF 0 s x y = none := rfl

/-! ### The cascade only flips `isRevealed`, monotonically -/

theorem revealShape (f : Nat) :
    (∀ s x y s', revealCellF f s x y = some s' →
      sameBoard s.grid s'.grid ∧ revMono s.grid s'.grid) ∧
    (∀ l s s', revealNbrsF f s l = some s' →
      sameBoard s.grid s'.grid ∧ revMono s.grid s'.grid) := by
  induction f with
  | zero =>
    refine ⟨?_, ?_⟩
    · intro s x y s' h
      rw [revealCellF_zero] at h
      exact absurd h (by simp)
    · intro l s s' h
      match l with
      | [] =>
        rw [revealNbrsF_nil] at h
        obtain rfl := Option.some_inj.mp h
        exact ⟨sameBoard_refl _, revMono_refl _⟩
      | p :: rest =>
        rw [revealNbrsF_cons, revealCellF_zero] at h
        exact absurd h (by simp)
  | succ f ih =>
    have hRC : ∀ s x y s', revealCellF (f + 1) s x y = some s' →
        sameBoard s.grid s'.grid ∧ revMono s.grid s'.grid := by
      intro s x y s' h
      rw [revealCellF_succ] at h
      by_cases hg : (s.grid.cell x y).isRevealed = true ∨ (s.grid.cell x y).isFlagged = true
      · rw [if_pos hg] at h
        obtain rfl := Option.some_inj.mp h
        exact ⟨sameBoard_refl _, revMono_refl _⟩
      · rw [if_neg hg] at h
        by_cases hm : (s.grid.cell x y).isMine = true
        · rw [if_pos hm] at h
          obtain rfl := Option.some_inj.mp h
          rw [endGame_grid]
          exact ⟨sameBoard_trans (sameBoard_setRevealed s x y)
              (sameBoard_revealAllMines _),
            revMono_trans (revMono_setRevealed s x y) (revMono_revealAllMines _)⟩
        · rw [if_neg hm] at h
          by_cases hz : (s.grid.cell x y).adjacentMines = 0
          · rw [if_pos hz] at h
            cases hr : revealNbrsF f (setRevealed s x y)
                (neighborCoords (setRevealed s x y).grid x y) with
            | none =>
              rw [hr] at h
              exact absurd h (by simp)
            | some s2 =>
              rw [hr] at h
              obtain rfl := Option.some_inj.mp h
              obtain ⟨hsb, hrm⟩ := ih.2 _ _ _ hr
              exact ⟨sameBoard_trans (sameBoard_setRevealed s x y)
                  (sameBoard_trans hsb (sameBoard_checkWin s2)),
                revMono_trans (revMono_setRevealed s x y)
                  (revMono_trans hrm (revMono_checkWin s2))⟩
          · rw [if_neg hz] at h
            obtain rfl := Option.some_inj.mp h
            exact ⟨sameBoard_trans (sameBoard_setRevealed s x y)
                (sameBoard_checkWin _),
              revMono_trans (revMono_setRevealed s x y) (revMono_checkWin _)⟩
    refine ⟨hRC, ?_⟩
    intro l
    induction l with
    | nil =>
      intro s s' h
      rw [revealNbrsF_nil] at h
      obtain rfl := Option.some_inj.mp h
      exact ⟨sameBoard_refl _, revMono_refl _⟩
    | cons p rest ihl =>
      intro s s' h
      rw [revealNbrsF_cons] at h
      cases hr : revealCellF (f + 1) s p.1 p.2 with
      | none =>
        rw [hr] at h
        exact absurd h (by simp)
      | some s1 =>
        rw [hr] at h
        obtain ⟨hsb1, hrm1⟩ := hRC _ _ _ _ hr
        obtain ⟨hsb2, hrm2⟩ := ihl _ _ h
        exact ⟨sameBoard_trans hsb1 hsb2, revMono_trans hrm1 hrm2⟩

/-! ### Fuel sufficiency: one more unit of fuel than unrevealed cells
always completes the cascade.  This is the termination statement for the
source's native recursion: each recursive call happens only after a
fresh cell was marked revealed. -/

theorem revealSufficiency (f : Nat) :
    (∀ s x y, x < s.grid.width → y < s.grid.height → unrevealedCount s.grid < f →
      (revealCellF f s x y).isSome = true) ∧
    (∀ l s, (∀ p ∈ l, p.1 < s.grid.width ∧ p.2 < s.grid.height) →
      unrevealedCount s.grid < f → (revealNbrsF f s l).isSome = true) := by
  induction f with
  | zero =>
    exact ⟨fun s x y _ _ hf => absurd hf (by omega),
      fun l s _ hf => absurd hf (by omega)⟩
  | succ f ih =>
    have hRC : ∀ s x y, x < s.grid.width → y < s.grid.height →
        unrevealedCount s.grid < f + 1 → (revealCellF (f + 1) s x y).isSome = true := by
      intro s x y hx hy hf
      rw [revealCellF_succ]
      by_cases hg : (s.grid.cell x y).isRevealed = true ∨ (s.grid.cell x y).isFlagged = true
      · rw [if_pos hg]; rfl
      · rw [if_neg hg]
        by_cases hm : (s.grid.cell x y).isMine = true
        · rw [if_pos hm]; rfl
        · rw [if_neg hm]
          by_cases hz : (s.grid.cell x y).adjacentMines = 0
          · rw [if_pos hz]
            have hrev : (s.grid.cell x y).isRevealed = false := by
              push_neg at hg
              cases hcell : (s.grid.cell x y).isRevealed
              · rfl
              · exact absurd hcell hg.1
            have hdec := unrevealedCount_setRevealed s hx hy hrev
            have hlt : unrevealedCount (setRevealed s x y).grid < f := by omega
            have hsome := ih.2 (neighborCoords (setRevealed s x y).grid x y)
              (setRevealed s x y) (fun p hp => mem_neighborCoords_bounds hp) hlt
            obtain ⟨s2, hr⟩ := Option.isSome_iff_exists.mp hsome
            rw [hr]
            rfl
          · rw [if_neg hz]; rfl
    refine ⟨hRC, ?_⟩
    intro l
    induction l with
    | nil =>
      intro s _ _
      rw [revealNbrsF_nil]
      rfl
    | cons p rest ihl =>
      intro s hb hf
      rw [revealNbrsF_cons]
      obtain ⟨hpx, hpy⟩ := hb p (List.mem_cons_self p rest)
      obtain ⟨s1, hr⟩ := Option.isSome_iff_exists.mp (hRC s p.1 p.2 hpx hpy hf)
      rw [hr]
      obtain ⟨hsb, hrm⟩ := (revealShape (f + 1)).1 _ _ _ _ hr
      have hb1 : ∀ q ∈ rest, q.1 < s1.grid.width ∧ q.2 < s1.grid.height := by
        intro q hq
        obtain ⟨h1, h2⟩ := hb q (List.mem_cons_of_mem p hq)
        rw [hsb.1.1, hsb.1.2]
        exact ⟨h1, h2⟩
      have hf1 : unrevealedCount s1.grid < f + 1 :=
        lt_of_le_of_lt (unrevealedCount_le_of_revMono hsb.1 hrm) hf
      exact ihl s1 hb1 hf1

/-! ### Mine placement -/

/-- Counts are correct when every in-bounds non-mine cell stores exactly
the engine's own recomputation `countAdjacentMines`. -/
def countsCorrect (g : Grid) : Prop :=
  ∀ x, x < g.width → ∀ y, y < g.height → (g.cell x y).isMine = false →
    (g.cell x y).adjacentMines = countAdjacentMines g x y

theorem computeAdjacency_width (g : Grid) : (computeAdjacency g).width = g.width := rfl

theorem computeAdjacency_height (g : Grid) : (computeAdjacency g).height = g.height := rfl

theorem computeAdjacency_cell_fields (g : Grid) (x y : Nat) :
    ((computeAdjacency g).cell x y).isMine = (g.cell x y).isMine ∧
    ((computeAdjacency g).cell x y).isFlagged = (g.cell x y).isFlagged ∧
    ((computeAdjacency g).cell x y).isRevealed = (g.cell x y).isRevealed := by
  by_cases h : x < g.width ∧ y < g.height ∧ (g.cell x y).isMine = false
  · simp [computeAdjacency, if_pos h]
  · simp [computeAdjacency, if_neg h]

theorem computeAdjacency_minesEq (g : Grid) : minesEq g (computeAdjacency g) :=
  ⟨⟨rfl, rfl⟩, fun x y => (computeAdjacency_cell_fields g x y).1⟩

theorem computeAdjacency_count (g : Grid) {x y : Nat} (hx : x < g.width) (hy : y < g.height)
    (hm : (g.cell x y).isMine = false) :
    ((computeAdjacency g).cell x y).adjacentMines = countAdjacentMines g x y := by
  simp [computeAdjacency, if_pos (⟨hx, hy, hm⟩ : _ ∧ _ ∧ _)]

theorem computeAdjacency_countsCorrect (g : Grid) : countsCorrect (computeAdjacency g) := by
  intro x hx y hy hm
  rw [computeAdjacency_width] at hx
  rw [computeAdjacency_height] at hy
  rw [(computeAdjacency_cell_fields g x y).1] at hm
  rw [computeAdjacency_count g hx hy hm,
    countAdjacentMines_congr (computeAdjacency_minesEq g)]

/-- The sampling loop only ever sets `isMine`; dimensions, the three
other cell fields, and every safety-zone cell are untouched. -/
theorem placeMinesGo_cells (mc sx sy : Nat) :
    ∀ rs g placed,
      dimsEq g (placeMinesGo mc sx sy g placed rs).1 ∧
      (∀ x y,
        (((placeMinesGo mc sx sy g placed rs).1.cell x y).isRevealed =
          (g.cell x y).isRevealed) ∧
        (((placeMinesGo mc sx sy g placed rs).1.cell x y).isFlagged =
          (g.cell x y).isFlagged) ∧
        (((placeMinesGo mc sx sy g placed rs).1.cell x y).adjacentMines =
          (g.cell x y).adjacentMines)) ∧
      (∀ x y, inSafeZone sx sy x y = true →
        (placeMinesGo mc sx sy g placed rs).1.cell x y = g.cell x y) := by
  intro rs
  induction rs with
  | nil =>
    intro g placed
    exact ⟨dimsEq_refl g, fun x y => ⟨rfl, rfl, rfl⟩, fun x y _ => rfl⟩
  | cons r rs ih =>
    intro g placed
    rw [placeMinesGo]
    by_cases hstop : mc ≤ placed
    · rw [if_pos hstop]
      exact ⟨dimsEq_refl g, fun x y => ⟨rfl, rfl, rfl⟩, fun x y _ => rfl⟩
    · rw [if_neg hstop]
      by_cases hacc : (g.cell (r.1 % g.width) (r.2 % g.height)).isMine = false ∧
          inSafeZone sx sy (r.1 % g.width) (r.2 % g.height) = false
      · rw [if_pos hacc]
        set x0 := r.1 % g.width
        set y0 := r.2 % g.height
        set g' := g.setCell x0 y0 { g.cell x0 y0 with isMine := true } with hg'
        obtain ⟨ihd, ihf, ihs⟩ := ih g' (placed + 1)
        refine ⟨dimsEq_trans (⟨rfl, rfl⟩ : dimsEq g g') ihd, fun x y => ?_, fun x y hsafe => ?_⟩
        · obtain ⟨h1, h2, h3⟩ := ihf x y
          by_cases hc : x = x0 ∧ y = y0
          · obtain ⟨rfl, rfl⟩ := hc
            rw [h1, h2, h3, hg', cell_setCell_self]
            exact ⟨rfl, rfl, rfl⟩
          · rw [h1, h2, h3, hg', cell_setCell_ne _ _ _ _ _ _ hc]
            exact ⟨rfl, rfl, rfl⟩
        · rw [ihs x y hsafe]
          have hc : ¬(x = x0 ∧ y = y0) := by
            intro ⟨rfl, rfl⟩
            rw [hsafe] at hacc
            exact absurd hacc.2 (by simp)
          rw [hg', cell_setCell_ne _ _ _ _ _ _ hc]
      · rw [if_neg hacc]
        exact ih g placed

/-- `placeMines` never puts a mine inside the safety zone of the first
click: a safety-zone cell keeps all the fields it had before placement. -/
theorem placeMines_safeZone (g : Grid) (mc sx sy : Nat) (rs : List (Nat × Nat)) {x y : Nat}
    (hsafe : inSafeZone sx sy x y = true) :
    ((placeMines g mc sx sy rs).cell x y).isMine = (g.cell x y).isMine := by
  unfold placeMines
  rw [(computeAdjacency_cell_fields _ x y).1, (placeMinesGo_cells mc sx sy rs g 0).2.2 x y hsafe]

theorem placeMines_width (g : Grid) (mc sx sy : Nat) (rs : List (Nat × Nat)) :
    (placeMines g mc sx sy rs).width = g.width := by
  unfold placeMines
  rw [computeAdjacency_width]
  exact ((placeMinesGo_cells mc sx sy rs g 0).1).1

theorem placeMines_height (g : Grid) (mc sx sy : Nat) (rs : List (Nat × Nat)) :
    (placeMines g mc sx sy rs).height = g.height := by
  unfold placeMines
  rw [computeAdjacency_height]
  exact ((placeMinesGo_cells mc sx sy rs g 0).1).2

theorem placeMines_countsCorrect (g : Grid) (mc sx sy : Nat) (rs : List (Nat × Nat)) :
    countsCorrect (placeMines g mc sx sy rs) :=
  computeAdjacency_countsCorrect _

theorem placeMines_revealed (g : Grid) (mc sx sy : Nat) (rs : List (Nat × Nat)) (x y : Nat) :
    ((placeMines g mc sx sy rs).cell x y).isRevealed = (g.cell x y).isRevealed := by
  unfold placeMines
  rw [(computeAdjacency_cell_fields _ x y).2.2,
    ((placeMinesGo_cells mc sx sy rs g 0).2.1 x y).1]

theorem placeMines_flagged (g : Grid) (mc sx sy : Nat) (rs : List (Nat × Nat)) (x y : Nat) :
    ((placeMines g mc sx sy rs).cell x y).isFlagged = (g.cell x y).isFlagged := by
  unfold placeMines
  rw [(computeAdjacency_cell_fields _ x y).2.1,
    ((placeMinesGo_cells mc sx sy rs g 0).2.1 x y).2.1]

/-- The number of cells a sample can still be accepted on: in bounds,
not yet a mine, outside the safety zone. -/
def availableCount (g : Grid) (sx sy : Nat) : Nat :=
  ((Finset.range g.width ×ˢ Finset.range g.height).filter fun p =>
    (g.cell p.1 p.2).isMine = false ∧ inSafeZone sx sy p.1 p.2 = false).card

theorem availableCount_setMine (g : Grid) (sx sy : Nat) {x y : Nat}
    (hx : x < g.width) (hy : y < g.height) (hm : (g.cell x y).isMine = false)
    (hs : inSafeZone sx sy x y = false) :
    availableCount (g.setCell x y { g.cell x y with isMine := true }) sx sy + 1 =
      availableCount g sx sy := by
  unfold availableCount
  rw [setCell_width, setCell_height]
  have hset : ((Finset.range g.width ×ˢ Finset.range g.height).filter fun p =>
      ((g.setCell x y { g.cell x y with isMine := true }).cell p.1 p.2).isMine = false ∧
        inSafeZone sx sy p.1 p.2 = false) =
      ((Finset.range g.width ×ˢ Finset.range g.height).filter fun p =>
        (g.cell p.1 p.2).isMine = false ∧ inSafeZone sx sy p.1 p.2 = false).erase (x, y) := by
    ext p
    simp only [Finset.mem_filter, Finset.mem_erase, Finset.mem_product, Finset.mem_range]
    constructor
    · intro ⟨hb, hmine, hsz⟩
      by_cases hc : p.1 = x ∧ p.2 = y
      · exfalso
        have hpxy : p = (x, y) := Prod.ext hc.1 hc.2
        rw [hpxy] at hmine
        simp only [cell_setCell_self] at hmine
        exact absurd hmine (by simp)
      · refine ⟨fun hpeq => hc ⟨by rw [hpeq], by rw [hpeq]⟩, hb, ?_, hsz⟩
        rwa [cell_setCell_ne _ _ _ _ _ _ hc] at hmine
    · intro ⟨hne, hb, hmine, hsz⟩
      have hc : ¬(p.1 = x ∧ p.2 = y) := by
        intro ⟨h1, h2⟩
        exact hne (Prod.ext h1 h2)
      rw [cell_setCell_ne _ _ _ _ _ _ hc]
      exact ⟨hb, hmine, hsz⟩
  rw [hset]
  have hmem : (x, y) ∈ (Finset.range g.width ×ˢ Finset.range g.height).filter
      fun p => (g.cell p.1 p.2).isMine = false ∧ inSafeZone sx sy p.1 p.2 = false := by
    simp only [Finset.mem_filter, Finset.mem_product, Finset.mem_range]
    exact ⟨⟨hx, hy⟩, hm, hs⟩
  rw [Finset.card_erase_of_mem hmem]
  have := Finset.card_pos.mpr ⟨(x, y), hmem⟩
  omega

/-- The sampling loop can never place more mines than there are
acceptable cells: each accepted sample uses one up. -/
theorem placeMinesGo_le (mc sx sy : Nat) :
    ∀ rs (g : Grid) placed, 0 < g.width → 0 < g.height →
      (placeMinesGo mc sx sy g placed rs).2 ≤ placed + availableCount g sx sy := by
  intro rs
  induction rs with
  | nil =>
    intro g placed _ _
    rw [placeMinesGo]
    omega
  | cons r rs ih =>
    intro g placed hw hh
    rw [placeMinesGo]
    by_cases hstop : mc ≤ placed
    · rw [if_pos hstop]
      omega
    · rw [if_neg hstop]
      by_cases hacc : (g.cell (r.1 % g.width) (r.2 % g.height)).isMine = false ∧
          inSafeZone sx sy (r.1 % g.width) (r.2 % g.height) = false
      · rw [if_pos hacc]
        have hx : r.1 % g.width < g.width := Nat.mod_lt _ hw
        have hy : r.2 % g.height < g.height := Nat.mod_lt _ hh
        have hdec := availableCount_setMine g sx sy hx hy hacc.1 hacc.2
        have := ih (g.setCell (r.1 % g.width) (r.2 % g.height)
            { g.cell (r.1 % g.width) (r.2 % g.height) with isMine := true }) (placed + 1)
          (by rw [setCell_width]; exact hw) (by rw [setCell_height]; exact hh)
        omega
      · rw [if_neg hacc]
        exact ih g placed hw hh

/-! ### The spec's brute-force adjacency scan -/

/-- Modelled from the spec: the eight-connected 3×3 Moore neighborhood —
the kernel the spec describes, which excludes the cell itself. -/
def mooreOffsets : List (Int × Int) :=
  [(-1, -1), (0, -1), (1, -1), (-1, 0), (1, 0), (-1, 1), (0, 1), (1, 1)]

/-- Modelled from the spec: the in-bounds Moore neighbours of a cell. -/
def mooreNeighborCoords (g : Grid) (x y : Nat) : List (Nat × Nat) :=
  mooreOffsets.filterMap fun d =>
    let nx : Int := (x : Int) + d.1
    let ny : Int := (y : Int) + d.2
    if 0 ≤ nx ∧ nx < (g.width : Int) ∧ 0 ≤ ny ∧ ny < (g.height : Int) then
      some (nx.toNat, ny.toNat)
    else
      none

/-- Modelled from the spec: the brute-force count of mine cells among a
cell's in-bounds Moore neighbours. -/
def mooreMineCount (g : Grid) (x y : Nat) : Nat :=
  (mooreNeighborCoords g x y).countP fun p => (g.cell p.1 p.2).isMine

/-- For an in-bounds non-mine cell the engine's count (whose kernel
includes the `(0,0)` offset) agrees with the spec's Moore-neighbour
count: the centre cell contributes nothing because it is not a mine. -/
theorem countP_filterMap_getD {α β : Type} (P : β → Bool) (f : α → Option β) (l : List α) :
    (l.filterMap f).countP P = l.countP fun a => ((f a).map P).getD false := by
  induction l with
  | nil => rfl
  | cons a l ih =>
    rw [List.filterMap_cons]
    cases h : f a with
    | none =>
      rw [List.countP_cons]
      simp [h, ih]
    | some b =>
      rw [List.countP_cons]
      simp [h, List.countP_cons, ih]

theorem countAdjacentMines_eq_moore (g : Grid) {x y : Nat} (hx : x < g.width)
    (hy : y < g.height) (hm : (g.cell x y).isMine = false) :
    countAdjacentMines g x y = mooreMineCount g x y := by
  unfold countAdjacentMines mooreMineCount neighborCoords mooreNeighborCoords
  rw [countP_filterMap_getD, countP_filterMap_getD]
  have hperm : kernelOffsets.Perm (((0 : Int), (0 : Int)) :: mooreOffsets) := by
    simp only [kernelOffsets, mooreOffsets]
    decide
  rw [hperm.countP_eq, List.countP_cons]
  have hc : (0 : Int) ≤ (x : Int) + 0 ∧ (x : Int) + 0 < (g.width : Int) ∧
      (0 : Int) ≤ (y : Int) + 0 ∧ (y : Int) + 0 < (g.height : Int) :=
    ⟨by omega, by omega, by omega, by omega⟩
  simp [if_pos hc, hm, hx, hy]

/-! ### The cascade never takes the loss branch on a correct board -/

/-- No in-bounds mine cell is revealed. -/
def noMineRevealed (g : Grid) : Prop :=
  ∀ x, x < g.width → ∀ y, y < g.height → (g.cell x y).isMine = true →
    (g.cell x y).isRevealed = false

/-- The session has not lost, and cannot have won "for free": as long as
`won` is still false, no mine is revealed and the game is not over. -/
def safeProgress (s : GameState) : Prop :=
  s.won = false → noMineRevealed s.grid ∧ s.gameOver = false

theorem countsCorrect_of_sameBoard {g g' : Grid} (h : sameBoard g g') (hc : countsCorrect g) :
    countsCorrect g' := by
  intro x hx y hy hm
  rw [h.1.1] at hx
  rw [h.1.2] at hy
  rw [(h.2 x y).1] at hm
  rw [(h.2 x y).2.2, countAdjacentMines_congr h.minesEq]
  exact hc x hx y hy hm

theorem noMineRevealed_setRevealed {s : GameState} {x y : Nat}
    (hm : (s.grid.cell x y).isMine = false) (h : noMineRevealed s.grid) :
    noMineRevealed (setRevealed s x y).grid := by
  intro x' hx' y' hy' hmine
  by_cases hc : x' = x ∧ y' = y
  · obtain ⟨rfl, rfl⟩ := hc
    rw [cell_setRevealed_self] at hmine
    simp only [] at hmine
    rw [hm] at hmine
    exact absurd hmine (by simp)
  · rw [setRevealed, cell_setCell_ne _ _ _ _ _ _ hc] at hmine ⊢
    exact h x' hx' y' hy' hmine

theorem safeProgress_checkWin {s : GameState} (h : safeProgress s) :
    safeProgress (checkWin s) := by
  unfold checkWin
  split
  · intro hwon
    rw [endGame_won] at hwon
    exact absurd hwon (by simp)
  · exact h

theorem revealNoLoss (f : Nat) :
    (∀ s x y s', countsCorrect s.grid → safeProgress s →
      x < s.grid.width → y < s.grid.height → (s.grid.cell x y).isMine = false →
      revealCellF f s x y = some s' → safeProgress s') ∧
    (∀ l s s', countsCorrect s.grid → safeProgress s →
      (∀ p ∈ l, p.1 < s.grid.width ∧ p.2 < s.grid.height ∧
        (s.grid.cell p.1 p.2).isMine = false) →
      revealNbrsF f s l = some s' → safeProgress s') := by
  induction f with
  | zero =>
    refine ⟨?_, ?_⟩
    · intro s x y s' _ _ _ _ _ h
      rw [revealCellF_zero] at h
      exact absurd h (by simp)
    · intro l s s' _ hs _ h
      match l with
      | [] =>
        rw [revealNbrsF_nil] at h
        obtain rfl := Option.some_inj.mp h
        exact hs
      | p :: rest =>
        rw [revealNbrsF_cons, revealCellF_zero] at h
        exact absurd h (by simp)
  | succ f ih =>
    have hRC : ∀ s x y s', countsCorrect s.grid → safeProgress s →
        x < s.grid.width → y < s.grid.height → (s.grid.cell x y).isMine = false →
        revealCellF (f + 1) s x y = some s' → safeProgress s' := by
      intro s x y s' hcc hs hx hy hm h
      rw [revealCellF_succ] at h
      by_cases hg : (s.grid.cell x y).isRevealed = true ∨ (s.grid.cell x y).isFlagged = true
      · rw [if_pos hg] at h
        obtain rfl := Option.some_inj.mp h
        exact hs
      · rw [if_neg hg, if_neg (by simp [hm])] at h
        have hsb1 := sameBoard_setRevealed s x y
        have hs1 : safeProgress (setRevealed s x y) := by
          intro hwon
          obtain ⟨hnm, hgo⟩ := hs hwon
          exact ⟨noMineRevealed_setRevealed hm hnm, hgo⟩
        by_cases hz : (s.grid.cell x y).adjacentMines = 0
        · rw [if_pos hz] at h
          cases hr : revealNbrsF f (setRevealed s x y)
              (neighborCoords (setRevealed s x y).grid x y) with
          | none =>
            rw [hr] at h
            exact absurd h (by simp)
          | some s2 =>
            rw [hr] at h
            obtain rfl := Option.some_inj.mp h
            have hz0 : countAdjacentMines s.grid x y = 0 := by
              rw [← hcc x hx y hy hm]
              exact hz
            have hnomine := (countAdjacentMines_eq_zero_iff s.grid x y).mp hz0
            have hnbr : ∀ p ∈ neighborCoords (setRevealed s x y).grid x y,
                p.1 < (setRevealed s x y).grid.width ∧
                p.2 < (setRevealed s x y).grid.height ∧
                ((setRevealed s x y).grid.cell p.1 p.2).isMine = false := by
              intro p hp
              obtain ⟨h1, h2⟩ := mem_neighborCoords_bounds hp
              refine ⟨h1, h2, ?_⟩
              rw [neighborCoords_congr hsb1.1] at hp
              rw [(hsb1.2 p.1 p.2).1]
              exact hnomine p hp
            have hs2 := ih.2 _ _ _ (countsCorrect_of_sameBoard hsb1 hcc) hs1 hnbr hr
            exact safeProgress_checkWin hs2
        · rw [if_neg hz] at h
          obtain rfl := Option.some_inj.mp h
          exact safeProgress_checkWin hs1
    refine ⟨hRC, ?_⟩
    intro l
    induction l with
    | nil =>
      intro s s' _ hs _ h
      rw [revealNbrsF_nil] at h
      obtain rfl := Option.some_inj.mp h
      exact hs
    | cons p rest ihl =>
      intro s s' hcc hs hb h
      rw [revealNbrsF_cons] at h
      cases hr : revealCellF (f + 1) s p.1 p.2 with
      | none =>
        rw [hr] at h
        exact absurd h (by simp)
      | some s1 =>
        rw [hr] at h
        obtain ⟨hp1, hp2, hp3⟩ := hb p (List.mem_cons_self p rest)
        have hs1 := hRC s p.1 p.2 s1 hcc hs hp1 hp2 hp3 hr
        obtain ⟨hsb, _⟩ := (revealShape (f + 1)).1 _ _ _ _ hr
        have hb1 : ∀ q ∈ rest, q.1 < s1.grid.width ∧ q.2 < s1.grid.height ∧
            (s1.grid.cell q.1 q.2).isMine = false := by
          intro q hq
          obtain ⟨h1, h2, h3⟩ := hb q (List.mem_cons_of_mem p hq)
          rw [hsb.1.1, hsb.1.2, (hsb.2 q.1 q.2).1]
          exact ⟨h1, h2, h3⟩
        exact ihl s1 s' (countsCorrect_of_sameBoard hsb hcc) hs1 hb1 h

/-! ### Flagged cells are never revealed — on non-mine cells -/

/-- No in-bounds non-mine cell is both flagged and revealed. -/
def flagRevealInv (g : Grid) : Prop :=
  ∀ x, x < g.width → ∀ y, y < g.height → (g.cell x y).isMine = false →
    ¬((g.cell x y).isFlagged = true ∧ (g.cell x y).isRevealed = true)

theorem toggleFlag_eq (s : GameState) (x y : Nat) :
    toggleFlag s x y =
      if (s.grid.cell x y).isRevealed = true then s
      else
        { s with
          grid := s.grid.setCell x y
            { s.grid.cell x y with isFlagged := !(s.grid.cell x y).isFlagged }
          flagsPlaced := s.flagsPlaced +
            (if !(s.grid.cell x y).isFlagged then 1 else -1) } := rfl

theorem flagRevealInv_toggleFlag {s : GameState} (x y : Nat) (h : flagRevealInv s.grid) :
    flagRevealInv (toggleFlag s x y).grid := by
  rw [toggleFlag_eq]
  by_cases hrev : (s.grid.cell x y).isRevealed = true
  · rw [if_pos hrev]
    exact h
  · rw [if_neg hrev]
    intro x' hx' y' hy' hm
    by_cases hc : x' = x ∧ y' = y
    · obtain ⟨rfl, rfl⟩ := hc
      simp only [cell_setCell_self]
      intro ⟨_, habs⟩
      exact hrev habs
    · simp only [cell_setCell_ne _ _ _ _ _ _ hc] at hm ⊢
      exact h x' hx' y' hy' hm

theorem flagRevealInv_revealAllMines {g : Grid} (h : flagRevealInv g) :
    flagRevealInv (revealAllMines g) := by
  intro x hx y hy hm
  have hmine : (revealAllMines g).cell x y = g.cell x y := by
    by_cases hc : x < g.width ∧ y < g.height ∧ (g.cell x y).isMine = true
    · exfalso
      rw [((sameBoard_revealAllMines g).2 x y).1] at hm
      rw [hm] at hc
      exact absurd hc.2.2 (by simp)
    · simp [revealAllMines, if_neg hc]
  rw [hmine] at hm ⊢
  exact h x hx y hy hm

theorem flagRevealInv_endGame {s : GameState} (w : Bool) (h : flagRevealInv s.grid) :
    flagRevealInv (endGame s w).grid := by
  rw [endGame_grid]
  exact flagRevealInv_revealAllMines h

theorem flagRevealInv_checkWin {s : GameState} (h : flagRevealInv s.grid) :
    flagRevealInv (checkWin s).grid := by
  unfold checkWin
  split
  · exact flagRevealInv_endGame true h
  · exact h

theorem flagRevealInv_setRevealed {s : GameState} {x y : Nat}
    (hf : (s.grid.cell x y).isFlagged = false) (h : flagRevealInv s.grid) :
    flagRevealInv (setRevealed s x y).grid := by
  intro x' hx' y' hy' hm
  by_cases hc : x' = x ∧ y' = y
  · obtain ⟨rfl, rfl⟩ := hc
    rw [cell_setRevealed_self]
    intro ⟨habs, _⟩
    simp only [] at habs
    rw [hf] at habs
    exact absurd habs (by simp)
  · rw [setRevealed, cell_setCell_ne _ _ _ _ _ _ hc] at hm ⊢
    exact h x' hx' y' hy' hm

theorem revealFlagInv (f : Nat) :
    (∀ s x y s', flagRevealInv s.grid → revealCellF f s x y = some s' →
      flagRevealInv s'.grid) ∧
    (∀ l s s', flagRevealInv s.grid → revealNbrsF f s l = some s' →
      flagRevealInv s'.grid) := by
  induction f with
  | zero =>
    refine ⟨?_, ?_⟩
    · intro s x y s' _ h
      rw [revealCellF_zero] at h
      exact absurd h (by simp)
    · intro l s s' hi h
      match l with
      | [] =>
        rw [revealNbrsF_nil] at h
        obtain rfl := Option.some_inj.mp h
        exact hi
      | p :: rest =>
        rw [revealNbrsF_cons, revealCellF_zero] at h
        exact absurd h (by simp)
  | succ f ih =>
    have hRC : ∀ s x y s', flagRevealInv s.grid → revealCellF (f + 1) s x y = some s' →
        flagRevealInv s'.grid := by
      intro s x y s' hi h
      rw [revealCellF_succ] at h
      by_cases hg : (s.grid.cell x y).isRevealed = true ∨ (s.grid.cell x y).isFlagged = true
      · rw [if_pos hg] at h
        obtain rfl := Option.some_inj.mp h
        exact hi
      · rw [if_neg hg] at h
        push_neg at hg
        have hf : (s.grid.cell x y).isFlagged = false := by
          cases hcell : (s.grid.cell x y).isFlagged
          · rfl
          · exact absurd hcell hg.2
        have hi1 := flagRevealInv_setRevealed hf hi
        by_cases hm : (s.grid.cell x y).isMine = true
        · rw [if_pos hm] at h
          obtain rfl := Option.some_inj.mp h
          exact flagRevealInv_endGame false hi1
        · rw [if_neg hm] at h
          by_cases hz : (s.grid.cell x y).adjacentMines = 0
          · rw [if_pos hz] at h
            cases hr : revealNbrsF f (setRevealed s x y)
                (neighborCoords (setRevealed s x y).grid x y) with
            | none =>
              rw [hr] at h
              exact absurd h (by simp)
            | some s2 =>
              rw [hr] at h
              obtain rfl := Option.some_inj.mp h
              exact flagRevealInv_checkWin (ih.2 _ _ _ hi1 hr)
          · rw [if_neg hz] at h
            obtain rfl := Option.some_inj.mp h
            exact flagRevealInv_checkWin hi1
    refine ⟨hRC, ?_⟩
    intro l
    induction l with
    | nil =>
      intro s s' hi h
      rw [revealNbrsF_nil] at h
      obtain rfl := Option.some_inj.mp h
      exact hi
    | cons p rest ihl =>
      intro s s' hi h
      rw [revealNbrsF_cons] at h
      cases hr : revealCellF (f + 1) s p.1 p.2 with
      | none =>
        rw [hr] at h
        exact absurd h (by simp)
      | some s1 =>
        rw [hr] at h
        exact ihl s1 s' (hRC s p.1 p.2 s1 hi hr) h

/-! ### Exactness of the flood fill

`R` plays the role of the connected zero-count region containing the
start cell; `inS g R` is the region together with its kernel border
(every in-bounds kernel neighbour of a region cell — this contains `R`
itself because the kernel includes the `(0,0)` offset). -/

/-- Membership in the region-plus-border set. -/
def inS (g : Grid) (R : List (Nat × Nat)) (p : Nat × Nat) : Prop :=
  ∃ r ∈ R, p ∈ neighborCoords g r.1 r.2

/-- `R` is a zero-count region: in bounds, mine-free, zero counts, and
closed under kernel steps to zero-count non-mine cells (maximality of
the connected component). -/
structure ZeroRegion (g : Grid) (R : List (Nat × Nat)) : Prop where
  bounds : ∀ r ∈ R, r.1 < g.width ∧ r.2 < g.height
  nonmine : ∀ r ∈ R, (g.cell r.1 r.2).isMine = false
  zero : ∀ r ∈ R, (g.cell r.1 r.2).adjacentMines = 0
  closed : ∀ r ∈ R, ∀ p ∈ neighborCoords g r.1 r.2,
    (g.cell p.1 p.2).isMine = false → (g.cell p.1 p.2).adjacentMines = 0 → p ∈ R

theorem inS_bounds {g : Grid} {R : List (Nat × Nat)} {p : Nat × Nat} (h : inS g R p) :
    p.1 < g.width ∧ p.2 < g.height := by
  obtain ⟨r, _, hp⟩ := h
  exact mem_neighborCoords_bounds hp

theorem inS_nonmine {g : Grid} {R : List (Nat × Nat)} (hcc : countsCorrect g)
    (hz : ZeroRegion g R) {p : Nat × Nat} (h : inS g R p) :
    (g.cell p.1 p.2).isMine = false := by
  obtain ⟨r, hr, hp⟩ := h
  obtain ⟨h1, h2⟩ := hz.bounds r hr
  have hzero : countAdjacentMines g r.1 r.2 = 0 := by
    rw [← hcc r.1 h1 r.2 h2 (hz.nonmine r hr)]
    exact hz.zero r hr
  exact (countAdjacentMines_eq_zero_iff g r.1 r.2).mp hzero p hp

theorem mem_inS {g : Grid} {R : List (Nat × Nat)} (hz : ZeroRegion g R) {r : Nat × Nat}
    (hr : r ∈ R) : inS g R r := by
  obtain ⟨h1, h2⟩ := hz.bounds r hr
  exact ⟨r, hr, by simpa using self_mem_neighborCoords g h1 h2⟩

/-- Every in-bounds revealed cell lies in the region-plus-border set. -/
def revealSub (g₀ : Grid) (R : List (Nat × Nat)) (s : GameState) : Prop :=
  ∀ x, x < s.grid.width → ∀ y, y < s.grid.height →
    (s.grid.cell x y).isRevealed = true → inS g₀ R (x, y)

/-- Every revealed region cell has all its kernel neighbours either
still pending (in `P`) or already revealed. -/
def cxInv (g₀ : Grid) (R : List (Nat × Nat)) (s : GameState) (P : List (Nat × Nat)) : Prop :=
  ∀ r ∈ R, (s.grid.cell r.1 r.2).isRevealed = true →
    ∀ q ∈ neighborCoords g₀ r.1 r.2, q ∈ P ∨ (s.grid.cell q.1 q.2).isRevealed = true

theorem cell_setRevealed_ne (s : GameState) (x y x' y' : Nat) (h : ¬(x' = x ∧ y' = y)) :
    (setRevealed s x y).grid.cell x' y' = s.grid.cell x' y' := by
  rw [setRevealed]
  exact cell_setCell_ne _ _ _ _ _ _ h

theorem revealExactAux (g₀ : Grid) (R : List (Nat × Nat)) (o : Nat × Nat)
    (hcc : countsCorrect g₀) (hz : ZeroRegion g₀ R)
    (hflag : ∀ p, inS g₀ R p → (g₀.cell p.1 p.2).isFlagged = false)
    (ho1 : o.1 < g₀.width) (ho2 : o.2 < g₀.height)
    (ho3 : (g₀.cell o.1 o.2).isMine = false) (ho4 : ¬inS g₀ R o) (f : Nat) :
    (∀ s x y s' P, sameBoard g₀ s.grid → revealSub g₀ R s →
      cxInv g₀ R s ((x, y) :: P) → inS g₀ R (x, y) → revealCellF f s x y = some s' →
      sameBoard g₀ s'.grid ∧ revealSub g₀ R s' ∧ cxInv g₀ R s' P ∧
        (s'.grid.cell x y).isRevealed = true ∧ revMono s.grid s'.grid) ∧
    (∀ l s s' P, sameBoard g₀ s.grid → revealSub g₀ R s →
      cxInv g₀ R s (l ++ P) → (∀ p ∈ l, inS g₀ R p) → revealNbrsF f s l = some s' →
      sameBoard g₀ s'.grid ∧ revealSub g₀ R s' ∧ cxInv g₀ R s' P ∧
        (∀ q ∈ l, (s'.grid.cell q.1 q.2).isRevealed = true) ∧ revMono s.grid s'.grid) := by
  induction f with
  | zero =>
    refine ⟨?_, ?_⟩
    · intro s x y s' P _ _ _ _ h
      rw [revealCellF_zero] at h
      exact absurd h (by simp)
    · intro l s s' P hsb hrs hcx _ h
      match l with
      | [] =>
        rw [revealNbrsF_nil] at h
        obtain rfl := Option.some_inj.mp h
        exact ⟨hsb, hrs, hcx, by simp, revMono_refl _⟩
      | p :: rest =>
        rw [revealNbrsF_cons, revealCellF_zero] at h
        exact absurd h (by simp)
  | succ f ih =>
    have hRC : ∀ s x y s' P, sameBoard g₀ s.grid → revealSub g₀ R s →
        cxInv g₀ R s ((x, y) :: P) → inS g₀ R (x, y) → revealCellF (f + 1) s x y = some s' →
        sameBoard g₀ s'.grid ∧ revealSub g₀ R s' ∧ cxInv g₀ R s' P ∧
          (s'.grid.cell x y).isRevealed = true ∧ revMono s.grid s'.grid := by
      intro s x y s' P hsb hrs hcx hxyS h
      rw [revealCellF_succ] at h
      have hflag' : (s.grid.cell x y).isFlagged = false := by
        rw [(hsb.2 x y).2.1]
        exact hflag (x, y) hxyS
      by_cases hg : (s.grid.cell x y).isRevealed = true ∨ (s.grid.cell x y).isFlagged = true
      · rw [if_pos hg] at h
        obtain rfl := Option.some_inj.mp h
        have hrev : (s.grid.cell x y).isRevealed = true := by
          rcases hg with hg | hg
          · exact hg
          · rw [hflag'] at hg
            exact absurd hg (by simp)
        refine ⟨hsb, hrs, ?_, hrev, revMono_refl _⟩
        intro r hr hrrev q hq
        rcases hcx r hr hrrev q hq with hqP | hqrev
        · rcases List.mem_cons.mp hqP with hq0 | hqP
          · right
            rw [hq0]
            exact hrev
          · exact Or.inl hqP
        · exact Or.inr hqrev
      · rw [if_neg hg] at h
        have hmine : (s.grid.cell x y).isMine = false := by
          rw [(hsb.2 x y).1]
          exact inS_nonmine hcc hz hxyS
        rw [if_neg (by simp [hmine])] at h
        have hsb1 : sameBoard g₀ (setRevealed s x y).grid :=
          sameBoard_trans hsb (sameBoard_setRevealed s x y)
        have hxb := inS_bounds hxyS
        have hrs1 : revealSub g₀ R (setRevealed s x y) := by
          intro x' hx' y' hy' hrev
          by_cases hc : x' = x ∧ y' = y
          · obtain ⟨rfl, rfl⟩ := hc
            exact hxyS
          · rw [cell_setRevealed_ne s x y x' y' hc] at hrev
            rw [setRevealed] at hx' hy'
            exact hrs x' hx' y' hy' hrev
        have hrev1 : ((setRevealed s x y).grid.cell x y).isRevealed = true := by
          rw [cell_setRevealed_self]
        have hnbreq : neighborCoords (setRevealed s x y).grid x y =
            neighborCoords g₀ x y := by
          exact neighborCoords_congr hsb1.1 x y
        by_cases hzc : (s.grid.cell x y).adjacentMines = 0
        · rw [if_pos hzc] at h
          have hxyR : (x, y) ∈ R := by
            have hnm := inS_nonmine hcc hz hxyS
            obtain ⟨r, hr, hxynbr⟩ := hxyS
            refine hz.closed r hr (x, y) hxynbr hnm ?_
            rw [← (hsb.2 x y).2.2]
            exact hzc
          have hcx1 : cxInv g₀ R (setRevealed s x y) (neighborCoords g₀ x y ++ P) := by
            intro r hr hrrev q hq
            by_cases hc : r.1 = x ∧ r.2 = y
            · have : r = (x, y) := Prod.ext hc.1 hc.2
              subst this
              exact Or.inl (List.mem_append_left P hq)
            · rw [cell_setRevealed_ne s x y r.1 r.2 hc] at hrrev
              rcases hcx r hr hrrev q hq with hqP | hqrev
              · rcases List.mem_cons.mp hqP with hq0 | hqP
                · right
                  rw [hq0]
                  exact hrev1
                · exact Or.inl (List.mem_append_right _ hqP)
              · exact Or.inr (revMono_setRevealed s x y q.1 q.2 hqrev)
          have hnbrS : ∀ p ∈ neighborCoords g₀ x y, inS g₀ R p := fun p hp => ⟨(x, y), hxyR, hp⟩
          cases hr : revealNbrsF f (setRevealed s x y)
              (neighborCoords (setRevealed s x y).grid x y) with
          | none =>
            rw [hr] at h
            exact absurd h (by simp)
          | some s2 =>
            rw [hr] at h
            obtain rfl := Option.some_inj.mp h
            rw [hnbreq] at hr
            obtain ⟨hsb2, hrs2, hcx2, hlrev2, hmono2⟩ :=
              ih.2 (neighborCoords g₀ x y) (setRevealed s x y) s2 P hsb1 hrs1 hcx1 hnbrS hr
            have hcw : checkWin s2 = s2 := by
              refine @checkWin_of_unrevealed s2 o.1 o.2 ?_ ?_ ?_ ?_
              · rw [hsb2.1.1]
                exact ho1
              · rw [hsb2.1.2]
                exact ho2
              · by_contra hco
                have : (s2.grid.cell o.1 o.2).isRevealed = true := by
                  cases hce : (s2.grid.cell o.1 o.2).isRevealed
                  · exact absurd hce hco
                  · rfl
                exact ho4 (hrs2 o.1 (by rw [hsb2.1.1]; exact ho1) o.2
                  (by rw [hsb2.1.2]; exact ho2) this)
              · rw [(hsb2.2 o.1 o.2).1]
                exact ho3
            rw [hcw]
            refine ⟨hsb2, hrs2, hcx2, ?_, ?_⟩
            · exact hlrev2 (x, y) (self_mem_neighborCoords g₀ hxb.1 hxb.2)
            · exact revMono_trans (revMono_setRevealed s x y) hmono2
        · rw [if_neg hzc] at h
          obtain rfl := Option.some_inj.mp h
          have hcw : checkWin (setRevealed s x y) = setRevealed s x y := by
            refine @checkWin_of_unrevealed (setRevealed s x y) o.1 o.2 ?_ ?_ ?_ ?_
            · rw [hsb1.1.1]
              exact ho1
            · rw [hsb1.1.2]
              exact ho2
            · by_contra hco
              have : ((setRevealed s x y).grid.cell o.1 o.2).isRevealed = true := by
                cases hce : ((setRevealed s x y).grid.cell o.1 o.2).isRevealed
                · exact absurd hce hco
                · rfl
              exact ho4 (hrs1 o.1 (by rw [hsb1.1.1]; exact ho1) o.2
                (by rw [hsb1.1.2]; exact ho2) this)
            · rw [(hsb1.2 o.1 o.2).1]
              exact ho3
          rw [hcw]
          have hcx1 : cxInv g₀ R (setRevealed s x y) P := by
            intro r hr hrrev q hq
            by_cases hc : r.1 = x ∧ r.2 = y
            · exfalso
              have h0 := hz.zero r hr
              rw [hc.1, hc.2] at h0
              rw [← (hsb.2 x y).2.2] at h0
              exact hzc h0
            · rw [cell_setRevealed_ne s x y r.1 r.2 hc] at hrrev
              rcases hcx r hr hrrev q hq with hqP | hqrev
              · rcases List.mem_cons.mp hqP with hq0 | hqP
                · right
                  rw [hq0]
                  exact hrev1
                · exact Or.inl hqP
              · exact Or.inr (revMono_setRevealed s x y q.1 q.2 hqrev)
          exact ⟨hsb1, hrs1, hcx1, hrev1, revMono_setRevealed s x y⟩
    refine ⟨hRC, ?_⟩
    intro l
    induction l with
    | nil =>
      intro s s' P hsb hrs hcx _ h
      rw [revealNbrsF_nil] at h
      obtain rfl := Option.some_inj.mp h
      exact ⟨hsb, hrs, by simpa using hcx, by simp, revMono_refl _⟩
    | cons p rest ihl =>
      intro s s' P hsb hrs hcx hlS h
      rw [revealNbrsF_cons] at h
      cases hr : revealCellF (f + 1) s p.1 p.2 with
      | none =>
        rw [hr] at h
        exact absurd h (by simp)
      | some s1 =>
        rw [hr] at h
        have hcx' : cxInv g₀ R s ((p.1, p.2) :: (rest ++ P)) := by
          have : (p.1, p.2) :: (rest ++ P) = (p :: rest) ++ P := by simp
          rw [this]
          exact hcx
        obtain ⟨hsb1, hrs1, hcx1, hprev1, hmono1⟩ :=
          hRC s p.1 p.2 s1 (rest ++ P) hsb hrs hcx'
            (by simpa using hlS p (List.mem_cons_self p rest)) hr
        obtain ⟨hsb2, hrs2, hcx2, hlrev2, hmono2⟩ :=
          ihl s1 s' P hsb1 hrs1 hcx1 (fun q hq => hlS q (List.mem_cons_of_mem p hq)) h
        refine ⟨hsb2, hrs2, hcx2, ?_, revMono_trans hmono1 hmono2⟩
        intro q hq
        rcases List.mem_cons.mp hq with hq0 | hq'
        · subst hq0
          exact hmono2 q.1 q.2 (by simpa using hprev1)
        · exact hlrev2 q hq'

/-- Claim C3 (amended): starting from a fully-unrevealed board whose
counts are the engine's own and whose connected zero-count region `R`
(together with its kernel border) carries no flags, a completed cascade
call on any cell of `R` reveals exactly the region plus its kernel
border (`inS`) — provided some safe cell lies outside that set.  The
proviso is forced by the counterexample: when the cascade reveals the
last safe cell, the win routine additionally reveals every mine.
`rank` is a connectivity certificate for `R` towards the start cell. -/
theorem revealCascadeExact (g₀ : Grid) (R : List (Nat × Nat)) (o : Nat × Nat)
    (rank : Nat × Nat → Nat) (sx sy : Nat) (s₀ : GameState) (f : Nat)
    (hgrid : s₀.grid = g₀)
    (hcc : countsCorrect g₀) (hz : ZeroRegion g₀ R)
    (hflag : ∀ r ∈ R, ∀ p ∈ neighborCoords g₀ r.1 r.2, (g₀.cell p.1 p.2).isFlagged = false)
    (hunrev : ∀ x, x < g₀.width → ∀ y, y < g₀.height → (g₀.cell x y).isRevealed = false)
    (hstart : (sx, sy) ∈ R)
    (hrank : ∀ r ∈ R, r ≠ (sx, sy) →
      ∃ r' ∈ R, rank r' < rank r ∧ r ∈ neighborCoords g₀ r'.1 r'.2)
    (ho1 : o.1 < g₀.width) (ho2 : o.2 < g₀.height)
    (ho3 : (g₀.cell o.1 o.2).isMine = false) (ho4 : ¬inS g₀ R o)
    (hsome : (revealCellF f s₀ sx sy).isSome = true) :
    ∀ x, x < g₀.width → ∀ y, y < g₀.height →
      (((runReveal f s₀ sx sy).grid.cell x y).isRevealed = true ↔ inS g₀ R (x, y)) := by
  obtain ⟨s', hs'⟩ := Option.isSome_iff_exists.mp hsome
  have hrun : runReveal f s₀ sx sy = s' := by
    unfold runReveal
    rw [hs']
    rfl
  have hflag' : ∀ p, inS g₀ R p → (g₀.cell p.1 p.2).isFlagged = false := by
    intro p hp
    obtain ⟨r, hr, hpn⟩ := hp
    exact hflag r hr p hpn
  have hsb0 : sameBoard g₀ s₀.grid := by
    rw [hgrid]
    exact sameBoard_refl g₀
  have hrs0 : revealSub g₀ R s₀ := by
    intro x hx y hy hrev
    rw [hgrid] at hx hy hrev
    rw [hunrev x hx y hy] at hrev
    exact absurd hrev (by simp)
  have hcx0 : cxInv g₀ R s₀ [(sx, sy)] := by
    intro r hr hrev
    obtain ⟨h1, h2⟩ := hz.bounds r hr
    rw [hgrid, hunrev r.1 h1 r.2 h2] at hrev
    exact absurd hrev (by simp)
  obtain ⟨hsb', hrs', hcx', hrevstart, _⟩ :=
    (revealExactAux g₀ R o hcc hz hflag' ho1 ho2 ho3 ho4 f).1 s₀ sx sy s' []
      hsb0 hrs0 hcx0 (mem_inS hz hstart) hs'
  have hallR : ∀ n r, r ∈ R → rank r < n → (s'.grid.cell r.1 r.2).isRevealed = true := by
    intro n
    induction n with
    | zero =>
      intro r _ habs
      omega
    | succ n ihn =>
      intro r hr hlt
      by_cases heq : r = (sx, sy)
      · subst heq
        exact hrevstart
      · obtain ⟨r', hr', hlt', hmem⟩ := hrank r hr heq
        have hrev' := ihn r' hr' (by omega)
        rcases hcx' r' hr' hrev' r hmem with habs | hrev
        · exact absurd habs (List.not_mem_nil r)
        · exact hrev
  have hallS : ∀ p, inS g₀ R p → (s'.grid.cell p.1 p.2).isRevealed = true := by
    intro p hp
    obtain ⟨r, hr, hpn⟩ := hp
    have hrrev := hallR (rank r + 1) r hr (by omega)
    rcases hcx' r hr hrrev p hpn with habs | hrev
    · exact absurd habs (List.not_mem_nil p)
    · exact hrev
  intro x hx y hy
  rw [hrun]
  constructor
  · intro hrev
    exact hrs' x (by rw [hsb'.1.1]; exact hx) y (by rw [hsb'.1.2]; exact hy) hrev
  · intro hins
    exact hallS (x, y) hins

/-! ### Win evaluation -/

/-- Every in-bounds non-mine cell is revealed. -/
def allSafeRevealed (g : Grid) : Prop :=
  ∀ x, x < g.width → ∀ y, y < g.height → (g.cell x y).isMine = false →
    (g.cell x y).isRevealed = true

theorem unrevealedSafeCount_eq_zero_iff (g : Grid) :
    unrevealedSafeCount g = 0 ↔ allSafeRevealed g := by
  unfold unrevealedSafeCount allSafeRevealed
  rw [Finset.card_eq_zero, Finset.filter_eq_empty_iff]
  constructor
  · intro h x hx y hy hm
    have hmem : (x, y) ∈ Finset.range g.width ×ˢ Finset.range g.height :=
      Finset.mem_product.mpr ⟨Finset.mem_range.mpr hx, Finset.mem_range.mpr hy⟩
    have hnot := h hmem
    simp only [not_and] at hnot
    by_contra hrev
    have hrf : (g.cell x y).isRevealed = false := by
      cases hc : (g.cell x y).isRevealed
      · rfl
      · exact absurd hc hrev
    exact hnot hrf hm
  · intro h p hp
    obtain ⟨hp1, hp2⟩ := Finset.mem_product.mp hp
    rw [Finset.mem_range] at hp1 hp2
    simp only [not_and]
    intro hrf hm
    have := h p.1 hp1 p.2 hp2 hm
    rw [hrf] at this
    exact absurd this (by simp)

/-! ### A completed reveal on an unrevealed, unflagged cell reveals it -/

theorem revealCellF_sets {f : Nat} {s : GameState} {x y : Nat} {s' : GameState}
    (hunrev : (s.grid.cell x y).isRevealed = false)
    (hunflag : (s.grid.cell x y).isFlagged = false)
    (h : revealCellF f s x y = some s') :
    (s'.grid.cell x y).isRevealed = true := by
  match f with
  | 0 =>
    rw [revealCellF_zero] at h
    exact absurd h (by simp)
  | f + 1 =>
    rw [revealCellF_succ] at h
    rw [if_neg (by simp [hunrev, hunflag])] at h
    have hrev1 : ((setRevealed s x y).grid.cell x y).isRevealed = true := by
      rw [cell_setRevealed_self]
    by_cases hm : (s.grid.cell x y).isMine = true
    · rw [if_pos hm] at h
      obtain rfl := Option.some_inj.mp h
      rw [endGame_grid]
      exact revMono_revealAllMines _ x y hrev1
    · rw [if_neg hm] at h
      by_cases hz : (s.grid.cell x y).adjacentMines = 0
      · rw [if_pos hz] at h
        cases hr : revealNbrsF f (setRevealed s x y)
            (neighborCoords (setRevealed s x y).grid x y) with
        | none =>
          rw [hr] at h
          exact absurd h (by simp)
        | some s2 =>
          rw [hr] at h
          obtain rfl := Option.some_inj.mp h
          obtain ⟨_, hrm⟩ := (revealShape f).2 _ _ _ hr
          exact revMono_checkWin s2 x y (hrm x y hrev1)
      · rw [if_neg hz] at h
        obtain rfl := Option.some_inj.mp h
        exact revMono_checkWin _ x y hrev1

/-! ### Decidability of the bounded predicates, for concrete boards -/

instance (g : Grid) : Decidable (countsCorrect g) := by
  unfold countsCorrect
  infer_instance

instance (g : Grid) : Decidable (noMineRevealed g) := by
  unfold noMineRevealed
  infer_instance

instance (g : Grid) : Decidable (allSafeRevealed g) := by
  unfold allSafeRevealed
  infer_instance

instance (g : Grid) : Decidable (flagRevealInv g) := by
  unfold flagRevealInv
  infer_instance

instance (g : Grid) (R : List (Nat × Nat)) (p : Nat × Nat) : Decidable (inS g R p) := by
  unfold inS
  infer_instance

/-! ### Concrete boards used as witnesses and counterexamples -/

/-- The session state right after first-click mine placement:
`create()` initialised `gameOver` and `won` to `false`. -/
def startState (g : Grid) (fc : Bool) (fp : Int) : GameState :=
  { grid := g, gameOver := false, won := false, firstClick := fc, flagsPlaced := fp }

/-- Shorthand cell constructor for the concrete boards below. -/
def mkCell (m r fl : Bool) (a : Nat) : Cell :=
  { isMine := m, isRevealed := r, isFlagged := fl, adjacentMines := a }

/-- 4×1 board with a mine at `(3,0)`; counts computed by the engine:
`0, 0, 1` on the safe cells.  The zero region from `(0,0)` is
`{(0,0),(1,0)}` with border `{(2,0)}`; every safe cell lies in the
region or its border, so the cascade wins and reveals the mine. -/
def gC3a : Grid :=
  computeAdjacency
    { width := 4, height := 1,
      cell := fun x _ => if x = 3 then { initCell with isMine := true } else initCell }

def sC3a : GameState := startState gC3a false 0

def RC3a : List (Nat × Nat) := [(0, 0), (1, 0)]

/-- 5×1 board with a mine at `(2,0)`; counts `0, 1` on the cells left of
the mine.  The zero region from `(0,0)` is `{(0,0)}` with border
`{(1,0)}`, and the safe cells `(3,0)`, `(4,0)` stay untouched. -/
def gC3b : Grid :=
  computeAdjacency
    { width := 5, height := 1,
      cell := fun x _ => if x = 2 then { initCell with isMine := true } else initCell }

def sC3b : GameState := startState gC3b false 0

def RC3b : List (Nat × Nat) := [(0, 0)]

/-- 3×3 first-click scenario: one sample `(2,2)` is outside the safety
zone of a click at `(0,0)` and becomes the single mine. -/
def gC1 : Grid := placeMines (initGrid 3 3) 1 0 0 [(2, 2)]

/-- 2×1 board with both cells revealed, the right one a mine: the state
the claim's evaluation clause must judge. -/
def sC6 : GameState :=
  startState
    { width := 2, height := 1,
      cell := fun x _ =>
        if x = 1 then mkCell true true false 0 else mkCell false true false 1 }
    false 0

/-- A finished session (game over, not won). -/
def sC7 : GameState :=
  { grid := initGrid 1 1, gameOver := true, won := false, firstClick := false,
    flagsPlaced := 0 }

/-- 1×1 board whose only cell is flagged (and not a mine). -/
def sC8 : GameState :=
  startState
    { width := 1, height := 1, cell := fun _ _ => mkCell false false true 0 }
    false 1

/-- 1×1 board whose only cell is a flagged, unrevealed mine. -/
def sC9 : GameState :=
  startState
    { width := 1, height := 1, cell := fun _ _ => mkCell true false true 0 }
    false 1

/-- A session with no loss flag set. -/
theorem lost_eq_false_of_safeProgress {s : GameState} (h : safeProgress s) :
    lost s = false := by
  unfold lost
  cases hw : s.won
  · rw [(h hw).2]
    rfl
  · simp

/-! ### The claims -/

/-- Claim C1: for every mine-free, unrevealed starting grid and every
in-bounds first-click coordinate, after `placeMines` excludes the
safety zone around the click, the first reveal at the click never lands
on a mine, and a completed reveal never leaves the session lost. -/
theorem c1_first_reveal_never_lost (g₀ : Grid) (mc sx sy : Nat) (rs : List (Nat × Nat))
    (fc : Bool) (fp : Int) (f : Nat)
    (hclean : ∀ x, x < g₀.width → ∀ y, y < g₀.height →
      (g₀.cell x y).isMine = false ∧ (g₀.cell x y).isRevealed = false)
    (hx : sx < g₀.width) (hy : sy < g₀.height)
    (hsome : (revealCellF f (startState (placeMines g₀ mc sx sy rs) fc fp) sx sy).isSome
      = true) :
    ((placeMines g₀ mc sx sy rs).cell sx sy).isMine = false ∧
      lost (runReveal f (startState (placeMines g₀ mc sx sy rs) fc fp) sx sy) = false := by
  have hsz : inSafeZone sx sy sx sy = true := by
    simp [inSafeZone]
  have hmfalse : ((placeMines g₀ mc sx sy rs).cell sx sy).isMine = false := by
    rw [placeMines_safeZone g₀ mc sx sy rs hsz]
    exact (hclean sx hx sy hy).1
  refine ⟨hmfalse, ?_⟩
  obtain ⟨s', hs'⟩ := Option.isSome_iff_exists.mp hsome
  have hrun : runReveal f (startState (placeMines g₀ mc sx sy rs) fc fp) sx sy = s' := by
    unfold runReveal
    rw [hs']
    rfl
  rw [hrun]
  have hsp : safeProgress (startState (placeMines g₀ mc sx sy rs) fc fp) := by
    intro _
    refine ⟨?_, rfl⟩
    show noMineRevealed (placeMines g₀ mc sx sy rs)
    intro x hx' y hy' _
    rw [placeMines_width] at hx'
    rw [placeMines_height] at hy'
    rw [placeMines_revealed]
    exact (hclean x hx' y hy').2
  have hcc : countsCorrect (startState (placeMines g₀ mc sx sy rs) fc fp).grid :=
    placeMines_countsCorrect g₀ mc sx sy rs
  have hx2 : sx < (startState (placeMines g₀ mc sx sy rs) fc fp).grid.width := by
    show sx < (placeMines g₀ mc sx sy rs).width
    rw [placeMines_width]
    exact hx
  have hy2 : sy < (startState (placeMines g₀ mc sx sy rs) fc fp).grid.height := by
    show sy < (placeMines g₀ mc sx sy rs).height
    rw [placeMines_height]
    exact hy
  exact lost_eq_false_of_safeProgress
    ((revealNoLoss f).1 _ sx sy s' hcc hsp hx2 hy2 hmfalse hs')

theorem c1_witness :
    ((placeMines (initGrid 3 3) 1 0 0 [(2, 2)]).cell 0 0).isMine = false ∧
      lost (runReveal 20 (startState (placeMines (initGrid 3 3) 1 0 0 [(2, 2)]) false 0)
        0 0) = false :=
  c1_first_reveal_never_lost (initGrid 3 3) 1 0 0 [(2, 2)] false 0 20 (by decide)
    (by decide) (by decide) (by decide)

/-- Claim C2: after mine placement, every in-bounds non-mine cell's
`adjacentMines` equals the brute-force count of mine cells among its
in-bounds Moore neighbours. -/
theorem c2_adjacency_exact (g₀ : Grid) (mc sx sy : Nat) (rs : List (Nat × Nat)) :
    ∀ x, x < (placeMines g₀ mc sx sy rs).width →
      ∀ y, y < (placeMines g₀ mc sx sy rs).height →
        ((placeMines g₀ mc sx sy rs).cell x y).isMine = false →
        ((placeMines g₀ mc sx sy rs).cell x y).adjacentMines =
          mooreMineCount (placeMines g₀ mc sx sy rs) x y := by
  intro x hx y hy hm
  rw [placeMines_countsCorrect g₀ mc sx sy rs x hx y hy hm]
  exact countAdjacentMines_eq_moore _ hx hy hm

theorem c2_witness :
    (gC1.cell 1 1).adjacentMines = mooreMineCount gC1 1 1 :=
  c2_adjacency_exact (initGrid 3 3) 1 0 0 [(2, 2)] 1 (by decide) 1 (by decide) (by decide)

/-- Claim C3 (counterexample): on the 4×1 board `gC3a`, `RC3a` is a
genuine flag-free connected zero-count region containing the start
cell `(0,0)`, yet the cascade also reveals the mine `(3,0)`, which is
neither in the region nor a kernel neighbour of it — the win routine
reveals every mine once the last safe cell is opened. -/
theorem c3_counterexample :
    ZeroRegion gC3a RC3a ∧ (0, 0) ∈ RC3a ∧ countsCorrect gC3a ∧
      (∀ x, x < gC3a.width → ∀ y, y < gC3a.height →
        (gC3a.cell x y).isRevealed = false ∧ (gC3a.cell x y).isFlagged = false) ∧
      (revealCellF 9 sC3a 0 0).isSome = true ∧
      ¬inS gC3a RC3a (3, 0) ∧
      ((runReveal 9 sC3a 0 0).grid.cell 3 0).isRevealed = true :=
  ⟨⟨by decide, by decide, by decide, by decide⟩, by decide, by decide, by decide,
    by decide, by decide, by decide⟩

theorem c3_witness :
    ((runReveal 6 sC3b 0 0).grid.cell 1 0).isRevealed = true ↔ inS gC3b RC3b (1, 0) :=
  revealCascadeExact gC3b RC3b (3, 0) (fun _ => 0) 0 0 sC3b 6 rfl (by decide)
    ⟨by decide, by decide, by decide, by decide⟩ (by decide) (by decide) (by decide)
    (by decide) (by decide) (by decide) (by decide) (by decide) (by decide)
    1 (by decide) 0 (by decide)

/-- Claim C4: on any grid, a cascade reveal started in bounds completes
within fuel one larger than the number of unrevealed cells (each
recursive step first marks a fresh cell revealed, so the recursion
terminates), and the `isRevealed` flag blocks reprocessing: a reveal
call on an already-revealed cell returns the state unchanged. -/
theorem c4_cascade_terminates :
    (∀ s x y, x < s.grid.width → y < s.grid.height →
      (revealCellF (unrevealedCount s.grid + 1) s x y).isSome = true) ∧
    (∀ f s x y, (s.grid.cell x y).isRevealed = true →
      revealCellF (f + 1) s x y = some s) := by
  constructor
  · intro s x y hx hy
    exact (revealSufficiency (unrevealedCount s.grid + 1)).1 s x y hx hy (by omega)
  · intro f s x y h
    rw [revealCellF_succ, if_pos (Or.inl h)]

theorem c4_witness :
    (revealCellF (unrevealedCount sC3b.grid + 1) sC3b 0 0).isSome = true ∧
      revealCellF 1 (setRevealed sC3b 0 0) 0 0 = some (setRevealed sC3b 0 0) :=
  ⟨c4_cascade_terminates.1 sC3b 0 0 (by decide) (by decide),
    c4_cascade_terminates.2 0 (setRevealed sC3b 0 0) 0 0 (by decide)⟩

/-- Claim C5: when `mineCount` exceeds the number of acceptable cells
(non-mine, outside the safety zone), the sampling loop can never reach
`mineCount` placed mines, whatever finite stream of random samples it
consumes — the `while (minesPlaced < mineCount)` guard stays true
forever, so the source loops endlessly instead of failing with an
`InsufficientSpace` error (no such error path exists in the code). -/
theorem c5_placement_never_completes (g : Grid) (mc sx sy : Nat)
    (hw : 0 < g.width) (hh : 0 < g.height) (hover : availableCount g sx sy < mc) :
    ∀ rs, (placeMinesGo mc sx sy g 0 rs).2 < mc := by
  intro rs
  have h := placeMinesGo_le mc sx sy rs g 0 hw hh
  omega

theorem c5_witness :
    (placeMinesGo 1 0 0 (initGrid 2 2) 0 [(0, 0), (1, 0), (0, 1), (1, 1)]).2 < 1 :=
  c5_placement_never_completes (initGrid 2 2) 1 0 0 (by decide) (by decide) (by decide)
    [(0, 0), (1, 0), (0, 1), (1, 1)]

/-- Claim C6 (counterexample): on a grid with a revealed mine and every
safe cell revealed, the evaluation yields Won (the win check counts
only unrevealed safe cells and ignores revealed mines), where the claim
demands Lost whenever a mine cell is revealed. -/
theorem c6_counterexample :
    (sC6.grid.cell 1 0).isMine = true ∧ (sC6.grid.cell 1 0).isRevealed = true ∧
      (checkWin sC6).gameOver = true ∧ (checkWin sC6).won = true :=
  ⟨by decide, by decide, by decide, by decide⟩

/-- Claim C6 (amended): the evaluation `checkWin` is derived purely from
grid state, but it decides only the Won case: the session becomes Won
exactly when every in-bounds non-mine cell is revealed — revealed mines
notwithstanding — and otherwise the state is unchanged (Lost is
produced by the reveal operation hitting a mine, not by evaluation). -/
theorem c6_evaluation (s : GameState) :
    (allSafeRevealed s.grid → (checkWin s).gameOver = true ∧ (checkWin s).won = true) ∧
    (¬allSafeRevealed s.grid → checkWin s = s) := by
  constructor
  · intro h
    unfold checkWin
    rw [if_pos ((unrevealedSafeCount_eq_zero_iff s.grid).mpr h)]
    exact ⟨endGame_gameOver _ _, endGame_won _ _⟩
  · intro h
    unfold checkWin
    rw [if_neg fun hc => h ((unrevealedSafeCount_eq_zero_iff s.grid).mp hc)]

theorem c6_witness :
    (checkWin sC6).gameOver = true ∧ (checkWin sC6).won = true :=
  (c6_evaluation sC6).1 (by decide)

/-- Claim C7: once the session is over (`Won` or `Lost`), every pointer
event is rejected: the handler either restarts the scene (left click,
a fresh session) or returns the state untouched — `toggleFlag` and
`revealCell` are never invoked. -/
theorem c7_terminal_rejects (s : GameState) (rb lb : Bool) (gx gy : Int) (f : Nat)
    (rs : List (Nat × Nat)) (mc : Nat) (hgo : s.gameOver = true) :
    handlePointer s rb lb gx gy f rs mc = .restarted ∨
      handlePointer s rb lb gx gy f rs mc = .next s := by
  unfold handlePointer
  rw [if_pos hgo]
  by_cases hl : lb = true
  · rw [if_pos hl]
    exact Or.inl rfl
  · rw [if_neg hl]
    exact Or.inr rfl

theorem c7_witness :
    handlePointer sC7 false false 0 0 1 [] 1 = .restarted ∨
      handlePointer sC7 false false 0 0 1 [] 1 = .next sC7 :=
  c7_terminal_rejects sC7 false false 0 0 1 [] 1 rfl

/-- Claim C8: revealing a flagged cell is rejected with no state change
whatsoever; after unflagging the same (unrevealed, in-bounds) cell via
`toggleFlag`, a completed reveal on it succeeds and marks it revealed. -/
theorem c8_flag_blocks_reveal :
    (∀ f s x y, (s.grid.cell x y).isFlagged = true →
      revealCellF (f + 1) s x y = some s) ∧
    (∀ s x y, x < s.grid.width → y < s.grid.height →
      (s.grid.cell x y).isRevealed = false → (s.grid.cell x y).isFlagged = true →
      ((toggleFlag s x y).grid.cell x y).isFlagged = false ∧
        ∀ f, unrevealedCount (toggleFlag s x y).grid < f →
          (revealCellF f (toggleFlag s x y) x y).isSome = true ∧
            ((runReveal f (toggleFlag s x y) x y).grid.cell x y).isRevealed = true) := by
  constructor
  · intro f s x y h
    rw [revealCellF_succ, if_pos (Or.inr h)]
  · intro s x y hx hy hrev hfl
    have hcell : (toggleFlag s x y).grid.cell x y =
        { s.grid.cell x y with isFlagged := false } := by
      rw [toggleFlag_eq, if_neg (by simp [hrev])]
      simp [cell_setCell_self, hfl]
    have hw : (toggleFlag s x y).grid.width = s.grid.width := by
      rw [toggleFlag_eq, if_neg (by simp [hrev])]
      rfl
    have hh : (toggleFlag s x y).grid.height = s.grid.height := by
      rw [toggleFlag_eq, if_neg (by simp [hrev])]
      rfl
    refine ⟨by rw [hcell], ?_⟩
    intro f hf
    have hsome := (revealSufficiency f).1 (toggleFlag s x y) x y
      (by rw [hw]; exact hx) (by rw [hh]; exact hy) hf
    refine ⟨hsome, ?_⟩
    obtain ⟨s', hs'⟩ := Option.isSome_iff_exists.mp hsome
    have hrun : runReveal f (toggleFlag s x y) x y = s' := by
      unfold runReveal
      rw [hs']
      rfl
    rw [hrun]
    exact revealCellF_sets (by rw [hcell]; exact hrev) (by rw [hcell]) hs'

theorem c8_witness :
    revealCellF 3 sC8 0 0 = some sC8 ∧
      ((toggleFlag sC8 0 0).grid.cell 0 0).isFlagged = false ∧
      (revealCellF 2 (toggleFlag sC8 0 0) 0 0).isSome = true ∧
      ((runReveal 2 (toggleFlag sC8 0 0) 0 0).grid.cell 0 0).isRevealed = true :=
  ⟨c8_flag_blocks_reveal.1 2 sC8 0 0 (by decide),
    (c8_flag_blocks_reveal.2 sC8 0 0 (by decide) (by decide) (by decide) (by decide)).1,
    ((c8_flag_blocks_reveal.2 sC8 0 0 (by decide) (by decide) (by decide)
      (by decide)).2 2 (by decide)).1,
    ((c8_flag_blocks_reveal.2 sC8 0 0 (by decide) (by decide) (by decide)
      (by decide)).2 2 (by decide)).2⟩

/-- Claim C9 (counterexample): `endGame` (game-end processing) reveals
every mine, including flagged ones: a flagged unrevealed mine ends up
simultaneously flagged and revealed, violating the claimed invariant. -/
theorem c9_counterexample :
    (sC9.grid.cell 0 0).isFlagged = true ∧ (sC9.grid.cell 0 0).isRevealed = false ∧
      (sC9.grid.cell 0 0).isMine = true ∧
      ((endGame sC9 false).grid.cell 0 0).isFlagged = true ∧
      ((endGame sC9 false).grid.cell 0 0).isRevealed = true := by
  refine ⟨by decide, by decide, by decide, by decide, by decide⟩

/-- Claim C9 (amended): restricted to non-mine cells the invariant does
hold: flag toggling, game-end processing and (completed) reveals all
preserve "no in-bounds non-mine cell is both flagged and revealed";
only mine cells can end up flagged and revealed, via `endGame`. -/
theorem c9_invariant_preserved :
    (∀ s x y, flagRevealInv s.grid → flagRevealInv (toggleFlag s x y).grid) ∧
    (∀ s w, flagRevealInv s.grid → flagRevealInv (endGame s w).grid) ∧
    (∀ f s x y, flagRevealInv s.grid → (revealCellF f s x y).isSome = true →
      flagRevealInv (runReveal f s x y).grid) := by
  refine ⟨fun s x y h => flagRevealInv_toggleFlag x y h,
    fun s w h => flagRevealInv_endGame w h, ?_⟩
  intro f s x y h hsome
  obtain ⟨s', hs'⟩ := Option.isSome_iff_exists.mp hsome
  have hrun : runReveal f s x y = s' := by
    unfold runReveal
    rw [hs']
    rfl
  rw [hrun]
  exact (revealFlagInv f).1 s x y s' h hs'

theorem c9_witness :
    flagRevealInv (toggleFlag sC9 0 0).grid ∧ flagRevealInv (endGame sC9 false).grid ∧
      flagRevealInv (runReveal 6 sC3b 0 0).grid :=
  ⟨c9_invariant_preserved.1 sC9 0 0 (by decide),
    c9_invariant_preserved.2.1 sC9 false (by decide),
    c9_invariant_preserved.2.2 6 sC3b 0 0 (by decide) (by decide)⟩

/-- Claim C10 (counterexample): with correct counts and a valid start
cell, the cascade itself never reveals a mine, but the call can still
leave a mine revealed: on `gC3a` the cascade opens every safe cell, the
win routine fires, and the mine `(3,0)` is revealed. -/
theorem c10_counterexample :
    countsCorrect gC3a ∧ (gC3a.cell 0 0).isMine = false ∧
      (gC3a.cell 0 0).isRevealed = false ∧ (gC3a.cell 0 0).isFlagged = false ∧
      sC3a.gameOver = false ∧ noMineRevealed gC3a ∧
      (revealCellF 9 sC3a 0 0).isSome = true ∧
      ((runReveal 9 sC3a 0 0).grid.cell 3 0).isMine = true ∧
      ((runReveal 9 sC3a 0 0).grid.cell 3 0).isRevealed = true := by
  refine ⟨by decide, by decide, by decide, by decide, by decide, by decide, by decide,
    by decide, by decide⟩

/-- Claim C10 (amended): on a grid with correct counts, a completed
cascade from a non-mine cell never takes the loss branch (the session
is never lost afterwards), and unless the call ended in the win routine
(which reveals all mines for display), no mine cell is revealed. -/
theorem c10_cascade_no_loss (s : GameState) (x y : Nat) (f : Nat)
    (hcc : countsCorrect s.grid) (hgo : s.gameOver = false) (_hwon : s.won = false)
    (hnm : noMineRevealed s.grid) (hx : x < s.grid.width) (hy : y < s.grid.height)
    (hm : (s.grid.cell x y).isMine = false)
    (hsome : (revealCellF f s x y).isSome = true) :
    lost (runReveal f s x y) = false ∧
      ((runReveal f s x y).won = false → noMineRevealed (runReveal f s x y).grid) := by
  obtain ⟨s', hs'⟩ := Option.isSome_iff_exists.mp hsome
  have hrun : runReveal f s x y = s' := by
    unfold runReveal
    rw [hs']
    rfl
  rw [hrun]
  have hsp : safeProgress s := fun _ => ⟨hnm, hgo⟩
  have hres := (revealNoLoss f).1 s x y s' hcc hsp hx hy hm hs'
  exact ⟨lost_eq_false_of_safeProgress hres, fun hw => (hres hw).1⟩

theorem c10_witness :
    lost (runReveal 6 sC3b 0 0) = false ∧
      ((runReveal 6 sC3b 0 0).won = false → noMineRevealed (runReveal 6 sC3b 0 0).grid) :=
  c10_cascade_no_loss sC3b 0 0 6 (by decide) rfl rfl (by decide) (by decide) (by decide)
    (by decide) (by decide)

end Minesweeper
